import Mathlib

/-!
Verification development for the guided path tracer core
(`src/mitsuba/src/integrators/path/guided_path.cpp`).

The C++ core is shallowly embedded over exact rationals:

* `Float` values are modelled by `ℚ` (exact arithmetic; IEEE rounding is not
  modelled).  Values that the source tests with `std::isfinite` are modelled
  by `FVal`, a rational paired with a finiteness flag.
* `QuadTreeNode` keeps its four per-slot energy sums and four child indices;
  index `0` marks a leaf, exactly as in the source.  A `DTree` is a vector of
  such nodes (node 0 is the root) together with the atomic scalars `sum` and
  `statisticalWeight` and `m_maxDepth`.
* The recursive tree walks of the source (which either recurse directly or
  drive an explicit `std::stack`) are embedded as structural recursion over an
  explicit fuel parameter; a stack-driven depth-first traversal is realised as
  recursion over the slots.  Fuel exhaustion returns the neutral value of the
  walk.  Theorems quantify over the fuel (or require the walk to complete,
  via an executable completeness predicate).
-/

/-- `const float EPSILON = 1e-5f;` from the source. -/
def EPSILON : ℚ := 1 / 100000

/-- One `QuadTreeNode`: four energy sums `m_sum` and four child indices
`m_children`; a child index of 0 denotes a leaf slot. -/
structure QuadTreeNode where
  sums : Fin 4 → ℚ
  children : Fin 4 → ℕ
  deriving DecidableEq

instance : Inhabited QuadTreeNode :=
  ⟨⟨fun _ => 0, fun _ => 0⟩⟩

/-- `QuadTreeNode::isLeaf`: a slot is a leaf iff its child index is 0. -/
def QuadTreeNode.isLeaf (n : QuadTreeNode) (i : Fin 4) : Bool :=
  n.children i == 0

/-- `QuadTreeNode::setSum(index, val)` (single-slot form). -/
def QuadTreeNode.setSumAt (n : QuadTreeNode) (i : Fin 4) (v : ℚ) : QuadTreeNode :=
  { n with sums := Function.update n.sums i v }

/-- `QuadTreeNode::setSum(val)` (all four slots). -/
def QuadTreeNode.setSumAll (n : QuadTreeNode) (v : ℚ) : QuadTreeNode :=
  { n with sums := fun _ => v }

/-- `QuadTreeNode::setChild(idx, val)`. -/
def QuadTreeNode.setChildAt (n : QuadTreeNode) (i : Fin 4) (c : ℕ) : QuadTreeNode :=
  { n with children := Function.update n.children i c }

/-- Total of the four sums of a node, `sum(0)+sum(1)+sum(2)+sum(3)`. -/
def QuadTreeNode.total (n : QuadTreeNode) : ℚ :=
  n.sums 0 + n.sums 1 + n.sums 2 + n.sums 3

/-- `QuadTreeNode::childIndex(p)`: folds the point into the child quadrant,
returning the 2-bit child selector and the rescaled point.  Bit 0 comes from
the x coordinate, bit 1 from the y coordinate, exactly as the source loop. -/
def childIndexPoint (p : ℚ × ℚ) : Fin 4 × (ℚ × ℚ) :=
  let bx : Bool := decide (p.1 < 1/2)
  let by' : Bool := decide (p.2 < 1/2)
  let x : ℚ := if bx then p.1 * 2 else (p.1 - 1/2) * 2
  let y : ℚ := if by' then p.2 * 2 else (p.2 - 1/2) * 2
  (⟨(if bx then 0 else 1) + (if by' then 0 else 2), by
    rcases bx <;> rcases by' <;> simp⟩, (x, y))

/-- `QuadTreeNode::pdf(p, nodes, level, curr_level)`, embedded over the node
vector of the owning `DTree` with explicit fuel.  Children are looked up with
`List.getD`; the mutation of `p` and the by-reference increment of
`curr_level` in the source are modelled by passing the rescaled point and the
incremented level to the recursive call. -/
def qpdf (ns : List QuadTreeNode) : ℕ → ℕ → ℚ × ℚ → ℤ → ℤ → ℚ
  | 0, _, _, _, _ => 0
  | fuel + 1, idx, p, level, curr =>
    let n := ns.getD idx default
    let ip := childIndexPoint p
    if ¬ (n.sums ip.1 > 0) then 0
    else
      let factor := 4 * n.sums ip.1 / n.total
      if n.isLeaf ip.1 || (level == curr) then factor
      else factor * qpdf ns fuel (n.children ip.1) ip.2 level (curr + 1)

/-- Specification-side companion of `qpdf`: the list of per-step factors
`4·sum[i]/Σsum` accumulated along the descent selected by `p`, truncated at a
leaf or when `curr` reaches `level`; `none` as soon as a selected slot has a
non-positive sum.  (This follows the words of the spec sentence; `qpdf` is
the translation of the source.) -/
def pdfFactors (ns : List QuadTreeNode) : ℕ → ℕ → ℚ × ℚ → ℤ → ℤ → Option (List ℚ)
  | 0, _, _, _, _ => none
  | fuel + 1, idx, p, level, curr =>
    let n := ns.getD idx default
    let ip := childIndexPoint p
    if ¬ (n.sums ip.1 > 0) then none
    else
      let factor := 4 * n.sums ip.1 / n.total
      if n.isLeaf ip.1 || (level == curr) then some [factor]
      else
        match pdfFactors ns fuel (n.children ip.1) ip.2 level (curr + 1) with
        | none => none
        | some l => some (factor :: l)

/-! ### `QuadTreeNode::build` and `DTree::build`

The source builds the quadtree in place: for every non-leaf slot it first
recursively builds the child and then overwrites the slot sum with the total
of the child's four sums.  The in-place mutation of the shared node vector is
embedded as explicit state passing; the recursion gets an explicit fuel
(child indices of trees produced by this program strictly increase, so a fuel
of `ns.length` always suffices). -/

/-- One slot of the loop body of `QuadTreeNode::build`, parametrized by the
recursive call `rec`. -/
def buildSlot (rec : List QuadTreeNode → ℕ → List QuadTreeNode) (idx : ℕ) (i : Fin 4)
    (ns : List QuadTreeNode) : List QuadTreeNode :=
  let c := (ns.getD idx default).children i
  if c = 0 then ns
  else
    let ns1 := rec ns c
    ns1.set idx ((ns1.getD idx default).setSumAt i (ns1.getD c default).total)

/-- `QuadTreeNode::build(nodes)` on the node at `idx`, with fuel. -/
def buildNode : ℕ → List QuadTreeNode → ℕ → List QuadTreeNode
  | 0, ns, _ => ns
  | fuel + 1, ns, idx =>
    buildSlot (buildNode fuel) idx 3
      (buildSlot (buildNode fuel) idx 2
        (buildSlot (buildNode fuel) idx 1
          (buildSlot (buildNode fuel) idx 0 ns)))

/-- A directional quadtree `DTree`: densely packed node vector (node 0 is the
root), the atomic scalars `sum` and `statisticalWeight`, and `m_maxDepth`. -/
structure DTree where
  nodes : List QuadTreeNode
  sum : ℚ
  statisticalWeight : ℚ
  maxDepth : ℕ
  deriving DecidableEq

/-- The `DTree()` constructor: a single root node with all sums zero. -/
instance : Inhabited DTree :=
  ⟨⟨[default], 0, 0, 0⟩⟩

/-- `DTree::build()`: recursively build from the root, then store the total
of the root sums in the atomic `sum`.  The fuel `nodes.length` is enough for
every tree whose child indices strictly increase. -/
def DTree.build (t : DTree) : DTree :=
  let ns := buildNode t.nodes.length t.nodes 0
  { t with nodes := ns, sum := (ns.getD 0 default).total }

/-! ### Shape of a node vector

`buildNode` overwrites only sums of non-leaf slots; leaf sums and the child
topology are untouched.  Two vectors with the same length, the same children
and the same leaf sums have the same "shape"; all build results are
determined by the shape. -/

def SameShape (ns ms : List QuadTreeNode) : Prop :=
  ns.length = ms.length ∧
  ∀ j : ℕ, (ns.getD j default).children = (ms.getD j default).children ∧
    ∀ i : Fin 4, (ns.getD j default).children i = 0 →
      (ns.getD j default).sums i = (ms.getD j default).sums i

/-! ### Well-formedness: strictly increasing child indices

Every tree this program constructs appends children after their parent
(`setChild(i, m_nodes.size()); m_nodes.emplace_back();`), so a non-leaf child
index is strictly larger than the parent index and in bounds. -/

def ChildOk (ns : List QuadTreeNode) : Prop :=
  ∀ j, j < ns.length → ∀ i : Fin 4,
    (ns.getD j default).children i = 0 ∨
    (j < (ns.getD j default).children i ∧ (ns.getD j default).children i < ns.length)

/-! ### The total energy below a slot, as a function of the shape -/

/-- `nodeTotal ns fuel idx`: the recursive total of the subtree rooted at
node `idx`: leaf slots contribute their sum, non-leaf slots the total of the
child node.  This is the value `QuadTreeNode::build` writes into non-leaf
slots; it depends only on the shape of `ns`. -/
def nodeTotal (ns : List QuadTreeNode) : ℕ → ℕ → ℚ
  | 0, _ => 0
  | fuel + 1, idx =>
    let n := ns.getD idx default
    (if n.children 0 = 0 then n.sums 0 else nodeTotal ns fuel (n.children 0)) +
    (if n.children 1 = 0 then n.sums 1 else nodeTotal ns fuel (n.children 1)) +
    (if n.children 2 = 0 then n.sums 2 else nodeTotal ns fuel (n.children 2)) +
    (if n.children 3 = 0 then n.sums 3 else nodeTotal ns fuel (n.children 3))

/-! ### The region visited by `QuadTreeNode::build` -/

/-- `visited fuel ns idx j`: the build recursion started at `idx` with the
given fuel reaches node `j`. -/
def visited (ns : List QuadTreeNode) : ℕ → ℕ → ℕ → Bool
  | 0, _, _ => false
  | fuel + 1, idx, j =>
    idx == j ||
    (let n := ns.getD idx default
     (!(n.children 0 == 0) && visited ns fuel (n.children 0) j) ||
     (!(n.children 1 == 0) && visited ns fuel (n.children 1) j) ||
     (!(n.children 2 == 0) && visited ns fuel (n.children 2) j) ||
     (!(n.children 3 == 0) && visited ns fuel (n.children 3) j))

/-- The value `QuadTreeNode::build` writes into a non-leaf slot `(j, i)`:
the recursive total of the child subtree.  Depends only on the shape. -/
def rebuiltVal (ns : List QuadTreeNode) (j : ℕ) (i : Fin 4) : ℚ :=
  nodeTotal ns ns.length ((ns.getD j default).children i)

/-! ### Dual tree walks: majorizing factor and validation

`getMajorizingFactor`, `validateMajorizingFactor`, `buildAugmented` all walk a
pair of trees of possibly different topology.  A walk position in one tree is
a node index plus an optional "stuck" slot: the source encodes the latter as
`std::pair<size_t,int>` with second component `-1` (whole node) or a slot
index (the walk descended past a leaf of this tree; the leaf then behaves as
if uniformly subdivided, its denominator being `sum(slot)*4`).  The explicit
`std::stack` DFS is embedded as recursion over the four slots (the claims do
not depend on sibling order). -/

structure Cur where
  idx : ℕ
  slot : Option (Fin 4)
  deriving DecidableEq

/-- The slot actually addressed: the stuck slot if there is one, otherwise
the loop index `i` (`nodePair.nodeIndex.second < 0 ? i : second`). -/
def slotOf (c : Cur) (i : Fin 4) : Fin 4 :=
  c.slot.getD i

def curNode (ns : List QuadTreeNode) (c : Cur) : QuadTreeNode :=
  ns.getD c.idx default

/-- The denominator of the current position: total of the four sums, or
`sum(slot) * 4` when stuck below a leaf. -/
def curDenom (ns : List QuadTreeNode) (c : Cur) : ℚ :=
  match c.slot with
  | none => (curNode ns c).total
  | some j => (curNode ns c).sums j * 4

/-- `denom < EPSILON ? 0 : factor * 4 * sum(childIdx) / denom`. -/
def pdfAt (ns : List QuadTreeNode) (c : Cur) (f : ℚ) (i : Fin 4) : ℚ :=
  if curDenom ns c < EPSILON then 0
  else f * 4 * (curNode ns c).sums (slotOf c i) / curDenom ns c

def leafAt (ns : List QuadTreeNode) (c : Cur) (i : Fin 4) : Bool :=
  (curNode ns c).isLeaf (slotOf c i)

/-- The continuation position for slot `i`: stay on this node stuck at the
slot if it is a leaf, otherwise descend into the child. -/
def contCur (ns : List QuadTreeNode) (c : Cur) (i : Fin 4) : Cur :=
  if leafAt ns c i then ⟨c.idx, some (slotOf c i)⟩
  else ⟨(curNode ns c).children (slotOf c i), none⟩

/-- Running state of `DTree::getMajorizingFactor`: the largest scaling factor
seen so far and the pdf pair `(pdf_this, pdf_other)` at which it occurred. -/
structure MajSt where
  best : ℚ
  p1 : ℚ
  p2 : ℚ
  deriving DecidableEq

/-- One slot of the loop body of `getMajorizingFactor`.  At a position where
either side is a leaf the walk terminates: both pdfs are floored to EPSILON
and the running maximum of `otherPdf / pdf` is updated.  Otherwise the walk
descends with the un-floored pdfs as the new factors. -/
def gmfStep (tns ons : List QuadTreeNode)
    (rec : Cur → Cur → ℚ → ℚ → MajSt → MajSt)
    (c1 c2 : Cur) (f1 f2 : ℚ) (i : Fin 4) (st : MajSt) : MajSt :=
  if leafAt tns c1 i || leafAt ons c2 i then
    if max (pdfAt ons c2 f2 i) EPSILON / max (pdfAt tns c1 f1 i) EPSILON > st.best then
      ⟨max (pdfAt ons c2 f2 i) EPSILON / max (pdfAt tns c1 f1 i) EPSILON,
        max (pdfAt tns c1 f1 i) EPSILON, max (pdfAt ons c2 f2 i) EPSILON⟩
    else st
  else rec (contCur tns c1 i) (contCur ons c2 i) (pdfAt tns c1 f1 i) (pdfAt ons c2 f2 i) st

/-- The walk of `getMajorizingFactor` (the source's explicit stack is again
realised as slot-order recursion; the maximal ratio it computes is
order-independent). -/
def gmfGo (tns ons : List QuadTreeNode) : ℕ → Cur → Cur → ℚ → ℚ → MajSt → MajSt
  | 0, _, _, _, _, st => st
  | fuel + 1, c1, c2, f1, f2, st =>
    gmfStep tns ons (gmfGo tns ons fuel) c1 c2 f1 f2 3
      (gmfStep tns ons (gmfGo tns ons fuel) c1 c2 f1 f2 2
        (gmfStep tns ons (gmfGo tns ons fuel) c1 c2 f1 f2 1
          (gmfStep tns ons (gmfGo tns ons fuel) c1 c2 f1 f2 0 st)))

/-- `this.getMajorizingFactor(other)`: the returned pdf pair
`(pdf_this, pdf_other)`; initial state `largestScalingFactor = 0`,
`pdfPair = (1, 1)`. -/
def getMajorizingFactor (fuel : ℕ) (tns ons : List QuadTreeNode) : ℚ × ℚ :=
  ((gmfGo tns ons fuel ⟨0, none⟩ ⟨0, none⟩ 1 1 ⟨0, 1, 1⟩).p1,
    (gmfGo tns ons fuel ⟨0, none⟩ ⟨0, none⟩ 1 1 ⟨0, 1, 1⟩).p2)

/-- One slot of `validateMajorizingFactor`: terminate only where BOTH sides
are leaves, checking `factor*pdf - otherPdf ≥ -EPSILON` with un-floored
pdfs; otherwise descend (also past single-sided leaves). -/
def validateStep (tns ons : List QuadTreeNode) (A : ℚ)
    (rec : Cur → Cur → ℚ → ℚ → Bool)
    (c1 c2 : Cur) (f1 f2 : ℚ) (i : Fin 4) : Bool :=
  if leafAt tns c1 i && leafAt ons c2 i then
    decide (¬ (A * pdfAt tns c1 f1 i - pdfAt ons c2 f2 i < -EPSILON))
  else rec (contCur tns c1 i) (contCur ons c2 i) (pdfAt tns c1 f1 i) (pdfAt ons c2 f2 i)

def validateGo (tns ons : List QuadTreeNode) (A : ℚ) :
    ℕ → Cur → Cur → ℚ → ℚ → Bool
  | 0, _, _, _, _ => true
  | fuel + 1, c1, c2, f1, f2 =>
    validateStep tns ons A (validateGo tns ons A fuel) c1 c2 f1 f2 0 &&
    validateStep tns ons A (validateGo tns ons A fuel) c1 c2 f1 f2 1 &&
    validateStep tns ons A (validateGo tns ons A fuel) c1 c2 f1 f2 2 &&
    validateStep tns ons A (validateGo tns ons A fuel) c1 c2 f1 f2 3

/-- `this.validateMajorizingFactor(other, factor)` (the source checker). -/
def validateMajorizingFactor (fuel : ℕ) (tns ons : List QuadTreeNode) (A : ℚ) : Bool :=
  validateGo tns ons A fuel ⟨0, none⟩ ⟨0, none⟩ 1 1

/-- The variant of the validator that checks at the positions where
`getMajorizingFactor` actually terminates (either side a leaf), with both
pdfs floored to EPSILON — the granularity at which the factor is computed. -/
def majCheckStep (tns ons : List QuadTreeNode) (A : ℚ)
    (rec : Cur → Cur → ℚ → ℚ → Bool)
    (c1 c2 : Cur) (f1 f2 : ℚ) (i : Fin 4) : Bool :=
  if leafAt tns c1 i || leafAt ons c2 i then
    decide (max (pdfAt ons c2 f2 i) EPSILON ≤ A * max (pdfAt tns c1 f1 i) EPSILON)
  else rec (contCur tns c1 i) (contCur ons c2 i) (pdfAt tns c1 f1 i) (pdfAt ons c2 f2 i)

def majCheckGo (tns ons : List QuadTreeNode) (A : ℚ) :
    ℕ → Cur → Cur → ℚ → ℚ → Bool
  | 0, _, _, _, _ => true
  | fuel + 1, c1, c2, f1, f2 =>
    majCheckStep tns ons A (majCheckGo tns ons A fuel) c1 c2 f1 f2 0 &&
    majCheckStep tns ons A (majCheckGo tns ons A fuel) c1 c2 f1 f2 1 &&
    majCheckStep tns ons A (majCheckGo tns ons A fuel) c1 c2 f1 f2 2 &&
    majCheckStep tns ons A (majCheckGo tns ons A fuel) c1 c2 f1 f2 3

/-- Invariant of the majorizing-factor state: the pair is strictly positive
and the running maximum is bounded by the ratio of the pair. -/
def MajStOk (st : MajSt) : Prop :=
  0 < st.p1 ∧ 0 < st.p2 ∧ st.best ≤ st.p2 / st.p1

/-! ### `DTree::buildAugmented` and `DTree::computeIntegral` -/

/-- `computeAugmentedPdf(oldPdf, newPdf, A) = max(0, (A*newPdf - oldPdf)/(A-1))`. -/
def computeAugmentedPdf (oldPdf newPdf A : ℚ) : ℚ :=
  max 0 ((A * newPdf - oldPdf) / (A - 1))

/-- `DTree::computeIntegral` on the node vector: every leaf slot contributes
`sum(i) * factor/4`, non-leaf slots recurse with `factor/4`. -/
def integNode (ns : List QuadTreeNode) : ℕ → ℕ → ℚ → ℚ
  | 0, _, _ => 0
  | fuel + 1, idx, factor =>
    (if (ns.getD idx default).children 0 = 0
      then (ns.getD idx default).sums 0 * (factor / 4)
      else integNode ns fuel ((ns.getD idx default).children 0) (factor / 4)) +
    (if (ns.getD idx default).children 1 = 0
      then (ns.getD idx default).sums 1 * (factor / 4)
      else integNode ns fuel ((ns.getD idx default).children 1) (factor / 4)) +
    (if (ns.getD idx default).children 2 = 0
      then (ns.getD idx default).sums 2 * (factor / 4)
      else integNode ns fuel ((ns.getD idx default).children 2) (factor / 4)) +
    (if (ns.getD idx default).children 3 = 0
      then (ns.getD idx default).sums 3 * (factor / 4)
      else integNode ns fuel ((ns.getD idx default).children 3) (factor / 4))

def DTree.computeIntegral (fuel : ℕ) (t : DTree) : ℚ :=
  integNode t.nodes fuel 0 1

/-- The walk of `buildAugmented` terminates at a slot where either tree is a
leaf. -/
def augTermAt (oldNs newNs : List QuadTreeNode) (cOld cNew : Cur) (i : Fin 4) : Bool :=
  leafAt newNs cNew i || leafAt oldNs cOld i

/-- The value of the dual walk of `buildAugmented` with an arbitrary payload
`φ oldPdf newPdf` at the terminal slots, each at measure `4^-depth`.  The
residual sum, and the integrals of the two pdfs over the terminal partition,
are instances. -/
def walkSum (oldNs newNs : List QuadTreeNode) (φ : ℚ → ℚ → ℚ) :
    ℕ → Cur → Cur → ℚ → ℚ → ℚ
  | 0, _, _, _, _ => 0
  | fuel + 1, cOld, cNew, fOld, fNew =>
    (1 / 4) * (if augTermAt oldNs newNs cOld cNew 0
      then φ (pdfAt oldNs cOld fOld 0) (pdfAt newNs cNew fNew 0)
      else walkSum oldNs newNs φ fuel (contCur oldNs cOld 0) (contCur newNs cNew 0)
        (pdfAt oldNs cOld fOld 0) (pdfAt newNs cNew fNew 0)) +
    (1 / 4) * (if augTermAt oldNs newNs cOld cNew 1
      then φ (pdfAt oldNs cOld fOld 1) (pdfAt newNs cNew fNew 1)
      else walkSum oldNs newNs φ fuel (contCur oldNs cOld 1) (contCur newNs cNew 1)
        (pdfAt oldNs cOld fOld 1) (pdfAt newNs cNew fNew 1)) +
    (1 / 4) * (if augTermAt oldNs newNs cOld cNew 2
      then φ (pdfAt oldNs cOld fOld 2) (pdfAt newNs cNew fNew 2)
      else walkSum oldNs newNs φ fuel (contCur oldNs cOld 2) (contCur newNs cNew 2)
        (pdfAt oldNs cOld fOld 2) (pdfAt newNs cNew fNew 2)) +
    (1 / 4) * (if augTermAt oldNs newNs cOld cNew 3
      then φ (pdfAt oldNs cOld fOld 3) (pdfAt newNs cNew fNew 3)
      else walkSum oldNs newNs φ fuel (contCur oldNs cOld 3) (contCur newNs cNew 3)
        (pdfAt oldNs cOld fOld 3) (pdfAt newNs cNew fNew 3))

/-- Executable sanity condition for the dual walk: it completes within the
fuel and every visited position has both denominators at least EPSILON (so no
pdf is zeroed and each level of the partition carries full measure). -/
def walkOk (oldNs newNs : List QuadTreeNode) : ℕ → Cur → Cur → Bool
  | 0, _, _ => false
  | fuel + 1, cOld, cNew =>
    !(decide (curDenom oldNs cOld < EPSILON)) &&
    !(decide (curDenom newNs cNew < EPSILON)) &&
    (augTermAt oldNs newNs cOld cNew 0 ||
      walkOk oldNs newNs fuel (contCur oldNs cOld 0) (contCur newNs cNew 0)) &&
    (augTermAt oldNs newNs cOld cNew 1 ||
      walkOk oldNs newNs fuel (contCur oldNs cOld 1) (contCur newNs cNew 1)) &&
    (augTermAt oldNs newNs cOld cNew 2 ||
      walkOk oldNs newNs fuel (contCur oldNs cOld 2) (contCur newNs cNew 2)) &&
    (augTermAt oldNs newNs cOld cNew 3 ||
      walkOk oldNs newNs fuel (contCur oldNs cOld 3) (contCur newNs cNew 3))

/-- Executable no-clipping condition: at every terminal slot of the walk the
residual `(A*newPdf - oldPdf)/(A-1)` is non-negative, so the `max(0, ·)` in
`computeAugmentedPdf` never truncates. -/
def walkNC (oldNs newNs : List QuadTreeNode) (A : ℚ) :
    ℕ → Cur → Cur → ℚ → ℚ → Bool
  | 0, _, _, _, _ => true
  | fuel + 1, cOld, cNew, fOld, fNew =>
    (if augTermAt oldNs newNs cOld cNew 0
      then decide (0 ≤ (A * pdfAt newNs cNew fNew 0 - pdfAt oldNs cOld fOld 0) / (A - 1))
      else walkNC oldNs newNs A fuel (contCur oldNs cOld 0) (contCur newNs cNew 0)
        (pdfAt oldNs cOld fOld 0) (pdfAt newNs cNew fNew 0)) &&
    (if augTermAt oldNs newNs cOld cNew 1
      then decide (0 ≤ (A * pdfAt newNs cNew fNew 1 - pdfAt oldNs cOld fOld 1) / (A - 1))
      else walkNC oldNs newNs A fuel (contCur oldNs cOld 1) (contCur newNs cNew 1)
        (pdfAt oldNs cOld fOld 1) (pdfAt newNs cNew fNew 1)) &&
    (if augTermAt oldNs newNs cOld cNew 2
      then decide (0 ≤ (A * pdfAt newNs cNew fNew 2 - pdfAt oldNs cOld fOld 2) / (A - 1))
      else walkNC oldNs newNs A fuel (contCur oldNs cOld 2) (contCur newNs cNew 2)
        (pdfAt oldNs cOld fOld 2) (pdfAt newNs cNew fNew 2)) &&
    (if augTermAt oldNs newNs cOld cNew 3
      then decide (0 ≤ (A * pdfAt newNs cNew fNew 3 - pdfAt oldNs cOld fOld 3) / (A - 1))
      else walkNC oldNs newNs A fuel (contCur oldNs cOld 3) (contCur newNs cNew 3)
        (pdfAt oldNs cOld fOld 3) (pdfAt newNs cNew fNew 3))

/-- One slot of the construction loop of `buildAugmented`.  At a terminal
slot the residual is stored into the current leaf slot; otherwise a fresh
child node (initialized to `residual/4`) is appended, linked, the residual is
stored at the slot, and the walk recurses into the pair of children. -/
def augSlot (oldNs newNs : List QuadTreeNode) (A : ℚ)
    (rec : Cur → Cur → ℚ → ℚ → List QuadTreeNode → ℕ → List QuadTreeNode)
    (cOld cNew : Cur) (fOld fNew : ℚ) (i : Fin 4)
    (acc : List QuadTreeNode) (selfIdx : ℕ) : List QuadTreeNode :=
  if augTermAt oldNs newNs cOld cNew i then
    acc.set selfIdx ((acc.getD selfIdx default).setSumAt i
      (computeAugmentedPdf (pdfAt oldNs cOld fOld i) (pdfAt newNs cNew fNew i) A))
  else
    rec (contCur oldNs cOld i) (contCur newNs cNew i)
      (pdfAt oldNs cOld fOld i) (pdfAt newNs cNew fNew i)
      ((acc.set selfIdx
        (((acc.getD selfIdx default).setChildAt i acc.length).setSumAt i
          (computeAugmentedPdf (pdfAt oldNs cOld fOld i) (pdfAt newNs cNew fNew i) A))) ++
        [QuadTreeNode.mk
          (fun _ =>
            computeAugmentedPdf (pdfAt oldNs cOld fOld i) (pdfAt newNs cNew fNew i) A / 4)
          (fun _ => 0)])
      acc.length

/-- The construction walk of `buildAugmented`.  The source drives the same
depth-first construction with an explicit LIFO stack, which allocates a
node's children at discovery (as `augSlot` does) but descends into pending
subtrees in reverse slot order; that permutes only which fresh index each
subtree receives, not the shape, the stored sums or any quantity the claims
mention, and the slot-order recursion is used here. -/
def augGo (oldNs newNs : List QuadTreeNode) (A : ℚ) :
    ℕ → Cur → Cur → ℚ → ℚ → List QuadTreeNode → ℕ → List QuadTreeNode
  | 0, _, _, _, _, acc, _ => acc
  | fuel + 1, cOld, cNew, fOld, fNew, acc, selfIdx =>
    augSlot oldNs newNs A (augGo oldNs newNs A fuel) cOld cNew fOld fNew 3
      (augSlot oldNs newNs A (augGo oldNs newNs A fuel) cOld cNew fOld fNew 2
        (augSlot oldNs newNs A (augGo oldNs newNs A fuel) cOld cNew fOld fNew 1
          (augSlot oldNs newNs A (augGo oldNs newNs A fuel) cOld cNew fOld fNew 0
            acc selfIdx) selfIdx) selfIdx) selfIdx

/-- The scalar majorization factor as computed in `buildAugmented`:
`majorizing_pair.first < EPSILON && second < EPSILON ? 1 : second / first`. -/
def majorFactorA (fuel : ℕ) (newNs oldNs : List QuadTreeNode) : ℚ :=
  if (getMajorizingFactor fuel newNs oldNs).1 < EPSILON ∧
      (getMajorizingFactor fuel newNs oldNs).2 < EPSILON then 1
  else (getMajorizingFactor fuel newNs oldNs).2 / (getMajorizingFactor fuel newNs oldNs).1

/-- `DTree::buildAugmented(oldDist, newDist)` on the augmented tree `t`.
The atomic scalars and `m_maxDepth` are reset before the `|A - 1| < EPSILON`
early return is taken, but `m_nodes` is cleared only afterwards, so the early
return keeps whatever node vector an earlier construction left behind.
Returns the new tree state and the returned float (`0` or `A - 1`). -/
def DTree.buildAugmented (fuel : ℕ) (t oldD newD : DTree) : DTree × ℚ :=
  let A := majorFactorA fuel newD.nodes oldD.nodes
  if |A - 1| < EPSILON then
    ({ t with sum := 0, statisticalWeight := 0, maxDepth := 0 }, 0)
  else
    let ns0 : List QuadTreeNode := [⟨fun _ => computeAugmentedPdf 1 1 A, fun _ => 0⟩]
    let nsC := augGo oldD.nodes newD.nodes A fuel ⟨0, none⟩ ⟨0, none⟩ 1 1 ns0 0
    let nsB := buildNode nsC.length nsC 0
    ({ nodes := nsB, sum := (nsB.getD 0 default).total,
       statisticalWeight := newD.statisticalWeight, maxDepth := 0 }, A - 1)

/-! ### Finiteness-flagged floats, `DTree::depthAt` and the record paths

`recordIrradiance` guards on `std::isfinite`; the two scalar inputs are
modelled as a rational paired with a finiteness flag (`FVal`).  A value with
`finite = false` stands for an infinity or NaN; its rational payload is
irrelevant to the source semantics because every use is guarded by the
flag. -/

structure FVal where
  finite : Bool
  val : ℚ
  deriving DecidableEq

/-- `QuadTreeNode::depthAt(p, nodes)` with fuel (0 on fuel exhaustion). -/
def depthAtNode (ns : List QuadTreeNode) : ℕ → ℕ → ℚ × ℚ → ℕ
  | 0, _, _ => 0
  | fuel + 1, idx, p =>
    let ip := childIndexPoint p
    if (ns.getD idx default).children ip.1 = 0 then 1
    else 1 + depthAtNode ns fuel ((ns.getD idx default).children ip.1) ip.2

/-- `QuadTreeNode::record(p, irradiance, nodes)` (nearest filter): descend to
the leaf slot selected by `p` and add `irradiance` to its sum. -/
def recordNearestNode (ns : List QuadTreeNode) : ℕ → ℕ → ℚ × ℚ → ℚ → List QuadTreeNode
  | 0, _, _, _ => ns
  | fuel + 1, idx, p, irr =>
    let ip := childIndexPoint p
    if (ns.getD idx default).children ip.1 = 0 then
      ns.set idx ((ns.getD idx default).setSumAt ip.1
        ((ns.getD idx default).sums ip.1 + irr))
    else recordNearestNode ns fuel ((ns.getD idx default).children ip.1) ip.2 irr

/-- `QuadTreeNode::computeOverlappingArea`. -/
def computeOverlappingArea (min1 max1 min2 max2 : ℚ × ℚ) : ℚ :=
  max (min max1.1 max2.1 - max min1.1 min2.1) 0 *
    max (min max1.2 max2.2 - max min1.2 min2.2) 0

/-- One slot of the box-filter `QuadTreeNode::record(origin, size, ...)`
loop, parametrized by the recursive call. -/
def splatSlot (origin : ℚ × ℚ) (size value : ℚ)
    (rec : List QuadTreeNode → ℕ → ℚ × ℚ → ℚ → List QuadTreeNode)
    (idx : ℕ) (nodeOrigin : ℚ × ℚ) (nodeSize : ℚ) (i : Fin 4)
    (ns : List QuadTreeNode) : List QuadTreeNode :=
  let childSize := nodeSize / 2
  let childOrigin : ℚ × ℚ :=
    (nodeOrigin.1 + (if i.val % 2 = 1 then childSize else 0),
     nodeOrigin.2 + (if i.val / 2 % 2 = 1 then childSize else 0))
  let w := computeOverlappingArea origin (origin.1 + size, origin.2 + size)
    childOrigin (childOrigin.1 + childSize, childOrigin.2 + childSize)
  if 0 < w then
    if (ns.getD idx default).children i = 0 then
      ns.set idx ((ns.getD idx default).setSumAt i
        ((ns.getD idx default).sums i + value * w))
    else rec ns ((ns.getD idx default).children i) childOrigin childSize
  else ns

/-- `QuadTreeNode::record(origin, size, nodeOrigin, nodeSize, value, nodes)`
(box filter), with fuel; the four slots are processed in order on the
threaded node vector. -/
def recordSplatNode (origin : ℚ × ℚ) (size value : ℚ) :
    ℕ → List QuadTreeNode → ℕ → ℚ × ℚ → ℚ → List QuadTreeNode
  | 0, ns, _, _, _ => ns
  | fuel + 1, ns, idx, nodeOrigin, nodeSize =>
    splatSlot origin size value (recordSplatNode origin size value fuel) idx
      nodeOrigin nodeSize 3
      (splatSlot origin size value (recordSplatNode origin size value fuel) idx
        nodeOrigin nodeSize 2
        (splatSlot origin size value (recordSplatNode origin size value fuel) idx
          nodeOrigin nodeSize 1
          (splatSlot origin size value (recordSplatNode origin size value fuel) idx
            nodeOrigin nodeSize 0 ns)))

/-- `DTree::recordIrradiance(p, irradiance, statisticalWeight, filter)`:
guarded by finiteness/positivity of `statisticalWeight`, it adds to the
atomic statistical weight; guarded by finiteness/positivity of `irradiance`,
it records into the nodes with the nearest (`filter = true`) or box filter. -/
def DTree.recordIrradiance (fuel : ℕ) (t : DTree) (p : ℚ × ℚ)
    (irradiance statisticalWeight : FVal) (nearestFilter : Bool) : DTree :=
  if statisticalWeight.finite && decide (0 < statisticalWeight.val) then
    let t1 := { t with statisticalWeight := t.statisticalWeight + statisticalWeight.val }
    if irradiance.finite && decide (0 < irradiance.val) then
      if nearestFilter then
        { t1 with nodes := (recordNearestNode t1.nodes fuel 0 p
            (irradiance.val * statisticalWeight.val)) }
      else
        let depth := depthAtNode t1.nodes fuel 0 p
        let size : ℚ := (1 / 2) ^ depth
        let origin : ℚ × ℚ := (p.1 - size / 2, p.2 - size / 2)
        { t1 with nodes := (recordSplatNode origin size
            (irradiance.val * statisticalWeight.val / (size * size))
            fuel t1.nodes 0 (0, 0) 1) }
    else t1
  else t

/-! ### `DTreeWrapper`

The wrapper bundles the four trees, the replay counters, the augmented
scalar `B` and the Adam optimizer for the bsdf sampling fraction.  `Float`
state is exact `ℚ`. -/

/-- The state and hyperparameters of `AdamOptimizer` (`m_state` then
`m_hparams`); `var` is the source's `m_state.variable` (a Lean keyword). -/
structure AdamOptimizer where
  iter : ℤ
  firstMoment : ℚ
  secondMoment : ℚ
  var : ℚ
  batchAccumulation : ℚ
  batchGradient : ℚ
  learningRate : ℚ
  batchSize : ℤ
  epsilon : ℚ
  beta1 : ℚ
  beta2 : ℚ
  deriving DecidableEq

/-- `bsdfSamplingFractionOptimizer{0.01f}` with the default arguments of the
`AdamOptimizer` constructor. -/
instance : Inhabited AdamOptimizer :=
  ⟨⟨0, 0, 0, 0, 0, 0, 1/100, 1, 1/100000000, 9/10, 999/1000⟩⟩

structure DTreeWrapper where
  building : DTree
  sampling : DTree
  previous : DTree
  augmented : DTree
  current_samples : ℕ
  req_augmented_samples : ℕ
  weighted_previous_samples : ℚ
  B : ℚ
  m_rejPdfPair : ℚ × ℚ
  bsdfSamplingFractionOptimizer : AdamOptimizer
  min_nzradiance : ℚ
  deriving DecidableEq

/-- The `DTreeWrapper()` constructor (`min_nzradiance` starts at
`std::numeric_limits<float>::max()`, which is `2^128 - 2^104`). -/
instance : Inhabited DTreeWrapper :=
  ⟨⟨default, default, default, default, 0, 0, 0, 0, (1, 1), default,
    2 ^ 128 - 2 ^ 104⟩⟩

/-- Truncation toward zero, the effect of C++'s float-to-integer
conversion. -/
def truncQ (q : ℚ) : ℤ :=
  if 0 ≤ q then ⌊q⌋ else -⌊-q⌋

/-- `DTreeWrapper::computeRequiredSamples(sampler)` with the sampler draw `u`
passed explicitly: when `B < EPSILON` the requirement is zeroed; otherwise
`req = B * weighted_previous_samples` is truncated into
`req_augmented_samples` and incremented when `u` falls below the fractional
part. -/
def DTreeWrapper.computeRequiredSamples (w : DTreeWrapper) (u : ℚ) : DTreeWrapper :=
  if w.B < EPSILON then { w with req_augmented_samples := 0 }
  else
    let req := w.B * w.weighted_previous_samples
    let frac := req - ((truncQ req : ℤ) : ℚ)
    let base := (truncQ req).toNat
    { w with req_augmented_samples := if u < frac then base + 1 else base }

/-- `DTreeWrapper::getAugmentedMultiplier()`. -/
def DTreeWrapper.getAugmentedMultiplier (w : DTreeWrapper) : ℚ :=
  if w.current_samples < w.req_augmented_samples then
    (w.current_samples : ℚ) / (w.req_augmented_samples : ℚ)
  else 1

/-! ### `STreeNode` and `STree::subdivide` -/

structure STreeNode where
  dTree : DTreeWrapper
  isLeaf : Bool
  axis : ℤ
  children : Fin 2 → ℕ
  level : ℤ
  deriving DecidableEq

/-- The `STreeNode()` constructor. -/
instance : Inhabited STreeNode :=
  ⟨⟨default, true, 0, fun _ => 0, 0⟩⟩

/-- The child node `STree::subdivide` writes (loop body on a fresh default
node): a copy of the parent's `dTree` with halved building statistical
weight, the cycled axis, the incremented level; `isLeaf` and `children` keep
their default values. -/
def subChildOf (cur : STreeNode) : STreeNode :=
  { dTree := { cur.dTree with building := { cur.dTree.building with
        statisticalWeight := cur.dTree.building.statisticalWeight / 2 } },
    isLeaf := true,
    axis := (cur.axis + 1) % 3,
    children := fun _ => 0,
    level := cur.level + 1 }

/-- `STree::subdivide(nodeIdx, nodes)`: append two default children (the
`resize`), bail out past the `uint32_t` limit, link the children, give each a
copy of the parent's `dTree` with halved building statistical weight, the
cycled axis and the incremented level, then clear the parent. -/
def subdivideST (nodes : List STreeNode) (nodeIdx : ℕ) : List STreeNode :=
  let ns1 := nodes ++ [default, default]
  if 4294967295 < ns1.length then ns1
  else
    let cur := ns1.getD nodeIdx default
    ((ns1.set nodeIdx
        { cur with children := fun i => ns1.length - 2 + i.val,
                   isLeaf := false, dTree := default }).set
      (ns1.length - 2) (subChildOf cur)).set (ns1.length - 1) (subChildOf cur)

/-- The axis-cycling invariant of the spatial tree: every non-leaf node's
children carry axis `(parent.axis + 1) % 3`. -/
def AxisInv (nodes : List STreeNode) : Prop :=
  ∀ j, j < nodes.length → (nodes.getD j default).isLeaf = false →
    ∀ i : Fin 2,
      (nodes.getD ((nodes.getD j default).children i) default).axis =
        ((nodes.getD j default).axis + 1) % 3

/-- Child indices of non-leaf spatial nodes stay within the vector. -/
def SChildOk (nodes : List STreeNode) : Prop :=
  ∀ j, j < nodes.length → (nodes.getD j default).isLeaf = false →
    ∀ i : Fin 2, (nodes.getD j default).children i < nodes.length

/-! ### The sample-path replay (`reweightAugmentHybrid` / `rejectAugmentHybrid`)

The replay passes walk stored paths, recompute each vertex's directional pdf
against the current SD-tree and update its stored `woPdf` and `sc`; a path
whose recomputation fails is deactivated and cleared.  Transcendental
functions of the runtime (`atan2`, `exp`, and the constant pi) are not
rational; they enter the embedding as oracle parameters bundled in
`Oracles`, so every theorem quantifies over (or instantiates) them.  The
`vertices` buffer that each pass rebuilds is committed into the SD-tree and
never written back into the path list, so the embedding of a pass returns
the updated path list (the claims under study are frame properties of that
list).  The source drives its loops with OpenMP over indices and a shared
sampler; sampler draws are threaded explicitly as a list `us`. -/

structure Oracles where
  piQ : ℚ
  atan2Q : ℚ → ℚ → ℚ
  expQ : ℚ → ℚ

/-- `RVertex` (`Spectrum` is modelled as an RGB triple). -/
structure RVertex where
  o : ℚ × ℚ × ℚ
  d : ℚ × ℚ × ℚ
  time : ℚ
  bsdfVal : ℚ × ℚ × ℚ
  bsdfPdf : ℚ
  woPdf : ℚ
  isDelta : Bool
  sc : ℚ
  deriving DecidableEq

structure RadRecord where
  pos : ℤ
  L : ℚ × ℚ × ℚ
  pdf : ℚ
  deriving DecidableEq

structure NEERecord where
  pos : ℤ
  L : ℚ × ℚ × ℚ
  pdf : ℚ
  wo : ℚ × ℚ × ℚ
  bsdfVal : ℚ × ℚ × ℚ
  bsdfPdf : ℚ
  deriving DecidableEq

structure RPath where
  path : List RVertex
  radiance_records : List RadRecord
  nee_records : List NEERecord
  sample_pos : ℚ × ℚ
  active : Bool
  iter : ℤ
  deriving DecidableEq

instance : Inhabited RPath :=
  ⟨⟨[], [], [], (0, 0), false, 0⟩⟩

/-- The spatial tree: node vector and the (cubified) bounding box. -/
structure STree where
  nodes : List STreeNode
  aabbMin : ℚ × ℚ × ℚ
  aabbMax : ℚ × ℚ × ℚ

/-- `p[axis]` on a 3d point. -/
def getAxis3 (p : ℚ × ℚ × ℚ) (a : ℤ) : ℚ :=
  if a = 0 then p.1 else if a = 1 then p.2.1 else p.2.2

/-- `p[axis] = v` on a 3d point. -/
def setAxis3 (p : ℚ × ℚ × ℚ) (a : ℤ) (v : ℚ) : ℚ × ℚ × ℚ :=
  if a = 0 then (v, p.2.1, p.2.2)
  else if a = 1 then (p.1, v, p.2.2)
  else (p.1, p.2.1, v)

/-- `STreeNode::childIndex(p)`: halve the point along the node's axis and
return the selected side. -/
def STreeNode.childIndexP (n : STreeNode) (p : ℚ × ℚ × ℚ) : Fin 2 × (ℚ × ℚ × ℚ) :=
  if getAxis3 p n.axis < 1/2 then (0, setAxis3 p n.axis (getAxis3 p n.axis * 2))
  else (1, setAxis3 p n.axis ((getAxis3 p n.axis - 1/2) * 2))

/-- `STreeNode::dTreeWrapper(p, size, nodes)` (the voxel size is not needed
by the replay claims and is dropped), with fuel. -/
def sdTreeLookup (ns : List STreeNode) : ℕ → ℕ → ℚ × ℚ × ℚ → DTreeWrapper
  | 0, idx, _ => (ns.getD idx default).dTree
  | fuel + 1, idx, p =>
    let n := ns.getD idx default
    if n.isLeaf then n.dTree
    else
      let cp := n.childIndexP p
      sdTreeLookup ns fuel (n.children cp.1) cp.2

/-- `STree::dTreeWrapper(p)`: normalize the point into the unit cube of the
bounding box, then descend. -/
def STree.dTreeWrapperAt (fuel : ℕ) (s : STree) (p : ℚ × ℚ × ℚ) : DTreeWrapper :=
  let q : ℚ × ℚ × ℚ :=
    ((p.1 - s.aabbMin.1) / (s.aabbMax.1 - s.aabbMin.1),
     (p.2.1 - s.aabbMin.2.1) / (s.aabbMax.2.1 - s.aabbMin.2.1),
     (p.2.2 - s.aabbMin.2.2) / (s.aabbMax.2.2 - s.aabbMin.2.2))
  sdTreeLookup s.nodes fuel 0 q

/-- The `while (phi < 0) phi += 2*M_PI;` loop of `dirToCanonical`, with
fuel. -/
def normPhi : ℕ → ℚ → ℚ → ℚ
  | 0, _, phi => phi
  | fuel + 1, twoPi, phi => if phi < 0 then normPhi fuel twoPi (phi + twoPi) else phi

/-- `dirToCanonical(d)` (every `ℚ` is finite, so the `isfinite` guard of the
source never fires in the rational model). -/
def dirToCanonical (oc : Oracles) (fuel : ℕ) (d : ℚ × ℚ × ℚ) : ℚ × ℚ :=
  let cosTheta := min (max d.2.2 (-1)) 1
  let phi := normPhi fuel (2 * oc.piQ) (oc.atan2Q d.2.1 d.1)
  ((cosTheta + 1) / 2, phi / (2 * oc.piQ))

/-- `DTree::mean()`. -/
def DTree.mean (piQ : ℚ) (t : DTree) : ℚ :=
  if t.statisticalWeight = 0 then 0
  else 1 / (piQ * 4 * t.statisticalWeight) * t.sum

/-- `DTree::pdf(p, level, curr_level)`: uniform `1/(4 pi)` when the tree
holds no mass, otherwise the node walk `qpdf` over `4 pi`. -/
def DTree.pdfP (piQ : ℚ) (fuel : ℕ) (t : DTree) (p : ℚ × ℚ) (level curr : ℤ) : ℚ :=
  if ¬ (0 < t.mean piQ) then 1 / (4 * piQ)
  else qpdf t.nodes fuel 0 p level curr / (4 * piQ)

/-- `inline Float logistic(Float x)`. -/
def logistic (expQ : ℚ → ℚ) (x : ℚ) : ℚ :=
  1 / (1 + expQ (-x))

/-- `DTreeWrapper::bsdfSamplingFraction()`. -/
def DTreeWrapper.bsdfSamplingFraction (expQ : ℚ → ℚ) (w : DTreeWrapper) : ℚ :=
  logistic expQ w.bsdfSamplingFractionOptimizer.var

/-- `GuidedPathTracer::computePdf(vertex, dTree, dTreeVoxelSize, dTreePdf)`:
look up the spatial leaf at the vertex origin, evaluate the directional pdf
of its sampling tree at the vertex direction, and mix with the bsdf pdf by
the learned sampling fraction.  Returns the mixed pdf and the wrapper. -/
def computePdf (oc : Oracles) (fuel : ℕ) (s : STree) (v : RVertex) :
    ℚ × DTreeWrapper :=
  let dTree := s.dTreeWrapperAt fuel v.o
  let dTreePdf := DTree.pdfP oc.piQ fuel dTree.sampling
    (dirToCanonical oc fuel v.d) (-1) 0
  let bsf := dTree.bsdfSamplingFraction oc.expQ
  (bsf * v.bsdfPdf + (1 - bsf) * dTreePdf, dTree)

/-- The vertex loop of `reweightAugmentHybrid` as it acts on the stored
path: each vertex's `sc` is scaled by the reweight (when below one) and the
augmented multiplier and its `woPdf` replaced by the recomputed pdf; a
recomputed pdf below EPSILON terminates the loop (the partially updated path
is discarded by the caller).  The `vertices`/`throughput` bookkeeping of the
source only feeds the SD-tree commit and never the path. -/
def reweightVertices (oc : Oracles) (fuel : ℕ) (s : STree) :
    List RVertex → List RVertex × Bool
  | [] => ([], false)
  | v :: rest =>
    let r := computePdf oc fuel s v
    if r.1 < EPSILON then (v :: rest, true)
    else
      let reweight := r.1 / v.woPdf
      let v1 := if reweight < 1 then { v with sc := v.sc * reweight } else v
      let v2 := { v1 with sc := v1.sc * r.2.getAugmentedMultiplier, woPdf := r.1 }
      let res := reweightVertices oc fuel s rest
      (v2 :: res.1, res.2)

/-- The per-path body of `reweightAugmentHybrid`: inactive paths are
skipped; a terminated path is deactivated and cleared. -/
def reweightPath (oc : Oracles) (fuel : ℕ) (s : STree) (p : RPath) : RPath :=
  if ¬ p.active then p
  else
    let r := reweightVertices oc fuel s p.path
    if r.2 then
      { p with active := false, path := [], nee_records := [], radiance_records := [] }
    else { p with path := r.1 }

/-- `GuidedPathTracer::reweightAugmentHybrid(sampler)`: the loop runs over
`i < m_samplePaths->size()`, i.e. over every stored path. -/
def reweightAugmentHybrid (oc : Oracles) (fuel : ℕ) (s : STree)
    (paths : List RPath) : List RPath :=
  paths.map (reweightPath oc fuel s)

/-- The vertex loop of `rejectAugmentHybrid` as it acts on the stored path:
each vertex's `woPdf` is replaced and its `sc` scaled by the augmented
multiplier before the acceptance test; a sampler draw above the acceptance
probability rejects the path (the partially updated path is discarded by the
caller).  Returns the updated vertices, the rejection flag and the remaining
draws. -/
def rejectVertices (oc : Oracles) (fuel : ℕ) (s : STree) :
    List ℚ → List RVertex → List RVertex × Bool × List ℚ
  | us, [] => ([], false, us)
  | us, v :: rest =>
    let r := computePdf oc fuel s v
    let acceptProb := r.1 / v.woPdf
    let v1 := { v with woPdf := r.1, sc := v.sc * r.2.getAugmentedMultiplier }
    if acceptProb < us.headD 0 then (v1 :: rest, true, us.tail)
    else
      let res := rejectVertices oc fuel s us.tail rest
      (v1 :: res.1, res.2.1, res.2.2)

/-- The per-path body of `rejectAugmentHybrid`. -/
def rejectPath (oc : Oracles) (fuel : ℕ) (s : STree) (us : List ℚ) (p : RPath) :
    RPath × List ℚ :=
  if ¬ p.active then (p, us)
  else
    let r := rejectVertices oc fuel s us p.path
    if r.2.1 then
      ({ p with
          active := false, path := [], nee_records := [], radiance_records := [] },
        r.2.2)
    else ({ p with path := r.1 }, r.2.2)

/-- The prefix loop of `rejectAugmentHybrid`: process the first `n` paths in
order, threading the sampler draws. -/
def rejectLoop (oc : Oracles) (fuel : ℕ) (s : STree) :
    List ℚ → ℕ → List RPath → List RPath
  | _, 0, ps => ps
  | _, _ + 1, [] => []
  | us, n + 1, p :: ps =>
    let r := rejectPath oc fuel s us p
    r.1 :: rejectLoop oc fuel s r.2 n ps

/-- `GuidedPathTracer::rejectAugmentHybrid(sampler)`: the loop runs over
`i < m_augmentedStartPos` only. -/
def rejectAugmentHybrid (oc : Oracles) (fuel : ℕ) (s : STree) (us : List ℚ)
    (paths : List RPath) (augmentedStartPos : ℕ) : List RPath :=
  rejectLoop oc fuel s us augmentedStartPos paths

instance (ns : List QuadTreeNode) : Decidable (ChildOk ns) := by
  unfold ChildOk
  infer_instance

instance (nodes : List STreeNode) : Decidable (AxisInv nodes) := by
  unfold AxisInv
  infer_instance

instance (nodes : List STreeNode) : Decidable (SChildOk nodes) := by
  unfold SChildOk
  infer_instance

/-! ### Concrete inputs for the claim-level witnesses and counterexamples -/

/-- A single uniform leaf (the "current" tree of the C1 counterexample). -/
def exCurr1 : List QuadTreeNode := [⟨fun _ => 1, fun _ => 0⟩]

/-- A two-node tree whose energy concentrates in the subdivided slot 0 (the
"previous" tree of the C1 counterexample). -/
def exPrev1 : List QuadTreeNode :=
  [⟨fun _ => 1, fun i => if i = 0 then 1 else 0⟩,
   ⟨fun i => if i = 0 then 1 else 0, fun _ => 0⟩]

/-- Built single-leaf "old" distribution with uniform sums. -/
def exOld2 : DTree := ⟨[⟨fun _ => 1, fun _ => 0⟩], 4, 1, 0⟩

/-- Built single-leaf "new" distribution with sums `(1,1,2,2)`. -/
def exNew2 : DTree := ⟨[⟨fun i => if i.val < 2 then 1 else 2, fun _ => 2⟩], 6, 1, 0⟩

/-- An augmented tree still holding a node vector from an earlier
construction. -/
def exJunk : DTree := ⟨[⟨fun _ => 5, fun _ => 0⟩], 20, 7, 3⟩

/-- A two-node quadtree for the idempotence witness. -/
def exT8 : DTree :=
  ⟨[⟨fun _ => 1, fun i => if i = 0 then 1 else 0⟩,
    ⟨fun i => if i = 0 then 3 else 0, fun _ => 0⟩], 0, 0, 0⟩

/-- Wrapper state for the C5 witness: `B = 1/2`, seven weighted previous
samples. -/
def exW5 : DTreeWrapper :=
  { (default : DTreeWrapper) with B := 1/2, weighted_previous_samples := 7 }

/-- Wrapper state for the C5 counterexample: `B` positive but below EPSILON,
with a large weighted sample count. -/
def exW5cex : DTreeWrapper :=
  { (default : DTreeWrapper) with
      B := 1/200000, weighted_previous_samples := 1000000 }

/-- Concrete oracles for the replay examples: `pi = 3`, `atan2 = 0`,
`exp = 1` (so the learned bsdf sampling fraction is exactly `1/2`). -/
def exOracles3 : Oracles := ⟨3, fun _ _ => 0, fun _ => 1⟩

/-- A spatial tree with a single leaf holding a default wrapper. -/
def exSTree3 : STree := ⟨[default], (0, 0, 0), (1, 1, 1)⟩

/-- A stored vertex whose recorded `woPdf` is 1000. -/
def exVertex3 : RVertex := ⟨(1/2, 1/2, 1/2), (0, 0, 1), 0, (1, 1, 1), 1, 1000, false, 1⟩

/-- A retained, active path holding `exVertex3`. -/
def exRPath3 : RPath := ⟨[exVertex3], [], [], (0, 0), true, 0⟩

theorem default_children (i : Fin 4) : (default : QuadTreeNode).children i = 0 :=
  rfl

theorem default_sums (i : Fin 4) : (default : QuadTreeNode).sums i = 0 :=
  rfl

theorem qpdf_eq_pdfFactors (ns : List QuadTreeNode) :
    ∀ fuel idx p level curr,
      qpdf ns fuel idx p level curr =
        (pdfFactors ns fuel idx p level curr).elim 0 List.prod := by
  intro fuel
  induction fuel with
  | zero => intro idx p level curr; rfl
  | succ fuel ih =>
    intro idx p level curr
    rw [qpdf, pdfFactors]
    split
    · rfl
    · split
      · simp
      · rw [ih]
        rcases hrec : pdfFactors ns fuel ((ns.getD idx default).children
            (childIndexPoint p).1) (childIndexPoint p).2 level (curr + 1) with _ | l
        · simp
        · simp

/-! ### List helpers for the node-vector embedding -/

theorem getD_set_ne {α : Type} [Inhabited α] (l : List α) (k : ℕ) (a : α) (j : ℕ)
    (h : j ≠ k) : (l.set k a).getD j default = l.getD j default := by
  simp only [List.getD, List.get?_eq_getElem?]
  rw [List.getElem?_set_ne (by omega)]

theorem getD_set_self {α : Type} [Inhabited α] (l : List α) (k : ℕ) (a : α)
    (h : k < l.length) : (l.set k a).getD k default = a := by
  simp only [List.getD, List.get?_eq_getElem?]
  rw [List.getElem?_set_self h]
  rfl

theorem sameShape_refl (ns : List QuadTreeNode) : SameShape ns ns :=
  ⟨rfl, fun _ => ⟨rfl, fun _ _ => rfl⟩⟩

theorem sameShape_trans {ns ms ks : List QuadTreeNode}
    (h1 : SameShape ns ms) (h2 : SameShape ms ks) : SameShape ns ks := by
  refine ⟨h1.1.trans h2.1, fun j => ?_⟩
  obtain ⟨hc1, hs1⟩ := h1.2 j
  obtain ⟨hc2, hs2⟩ := h2.2 j
  refine ⟨hc1.trans hc2, fun i hi => ?_⟩
  rw [hs1 i hi, hs2 i (by rw [← hc1]; exact hi)]

theorem buildSlot_shape (rec : List QuadTreeNode → ℕ → List QuadTreeNode)
    (hrec : ∀ ns c, SameShape ns (rec ns c)) (idx : ℕ) (i : Fin 4)
    (ns : List QuadTreeNode) : SameShape ns (buildSlot rec idx i ns) := by
  rw [buildSlot]
  split
  · exact sameShape_refl ns
  · rename_i hc
    refine sameShape_trans (hrec ns ((ns.getD idx default).children i)) ?_
    set ns1 := rec ns ((ns.getD idx default).children i) with hns1
    by_cases hlen : idx < ns1.length
    · refine ⟨(List.length_set _ _ _).symm, fun j => ?_⟩
      by_cases hj : j = idx
      · rw [hj, getD_set_self _ _ _ hlen]
        refine ⟨rfl, fun i' hi' => ?_⟩
        have hchild : (ns.getD idx default).children = (ns1.getD idx default).children :=
          ((hrec ns ((ns.getD idx default).children i)).2 idx).1
        have hne : i' ≠ i := by
          intro h
          apply hc
          rw [hchild, ← h]
          exact hi'
        exact (Function.update_noteq hne _ _).symm
      · rw [getD_set_ne _ _ _ _ hj]
        exact ⟨rfl, fun _ _ => rfl⟩
    · rw [List.set_eq_of_length_le (by omega)]
      exact sameShape_refl ns1

theorem buildNode_shape :
    ∀ (fuel : ℕ) (ns : List QuadTreeNode) (idx : ℕ), SameShape ns (buildNode fuel ns idx) := by
  intro fuel
  induction fuel with
  | zero => intro ns idx; exact sameShape_refl ns
  | succ fuel ih =>
    intro ns idx
    rw [buildNode]
    refine sameShape_trans (buildSlot_shape _ (fun ns c => ih ns c) idx 0 ns) ?_
    refine sameShape_trans (buildSlot_shape _ (fun ns c => ih ns c) idx 1 _) ?_
    refine sameShape_trans (buildSlot_shape _ (fun ns c => ih ns c) idx 2 _) ?_
    exact buildSlot_shape _ (fun ns c => ih ns c) idx 3 _

theorem childOk_of_sameShape {ns ms : List QuadTreeNode} (h : SameShape ns ms)
    (hok : ChildOk ns) : ChildOk ms := by
  intro j hj i
  rw [← (h.2 j).1]
  rw [← h.1] at hj
  rcases hok j hj i with h0 | h1
  · exact Or.inl h0
  · exact Or.inr ⟨h1.1, h.1 ▸ h1.2⟩

/-- Node beyond the vector: `getD` yields the default (all-zero, all-leaf)
node. -/
theorem getD_out_of_range (ns : List QuadTreeNode) (j : ℕ) (h : ns.length ≤ j) :
    ns.getD j default = default := by
  simp only [List.getD, List.get?_eq_getElem?]
  rw [List.getElem?_eq_none (by omega)]
  rfl

theorem nodeTotal_congr {ns ms : List QuadTreeNode} (h : SameShape ns ms) :
    ∀ fuel idx, nodeTotal ns fuel idx = nodeTotal ms fuel idx := by
  intro fuel
  induction fuel with
  | zero => intro idx; rfl
  | succ fuel ih =>
    intro idx
    rw [nodeTotal, nodeTotal]
    have hc := (h.2 idx).1
    have hs := (h.2 idx).2
    rw [← hc]
    congr 1
    · congr 1
      · congr 1
        · split
          · rename_i h0; exact hs 0 h0
          · exact ih _
        · split
          · rename_i h0; exact hs 1 h0
          · exact ih _
      · split
        · rename_i h0; exact hs 2 h0
        · exact ih _
    · split
      · rename_i h0; exact hs 3 h0
      · exact ih _

theorem nodeTotal_out_of_range (ns : List QuadTreeNode) (j : ℕ) (h : ns.length ≤ j) :
    ∀ fuel, nodeTotal ns fuel j = 0 := by
  intro fuel
  cases fuel with
  | zero => rfl
  | succ fuel =>
    rw [nodeTotal, getD_out_of_range ns j h]
    simp [default_children, default_sums]

/-- Fuel stability: once the fuel covers the remaining length, `nodeTotal`
does not depend on it (child indices strictly increase). -/
theorem nodeTotal_stable (ns : List QuadTreeNode) (hok : ChildOk ns) :
    ∀ fuel₁ fuel₂ idx, ns.length - idx ≤ fuel₁ → ns.length - idx ≤ fuel₂ →
      nodeTotal ns fuel₁ idx = nodeTotal ns fuel₂ idx := by
  intro fuel₁
  induction fuel₁ with
  | zero =>
    intro fuel₂ idx h1 h2
    rw [nodeTotal_out_of_range ns idx (by omega), nodeTotal_out_of_range ns idx (by omega)]
  | succ fuel₁ ih =>
    intro fuel₂ idx h1 h2
    by_cases hidx : idx < ns.length
    · have hf2 : ∃ f, fuel₂ = f + 1 := by
        rcases fuel₂ with _ | f
        · omega
        · exact ⟨f, rfl⟩
      obtain ⟨f2, rfl⟩ := hf2
      rw [nodeTotal, nodeTotal]
      have step : ∀ i : Fin 4,
          (if (ns.getD idx default).children i = 0 then (ns.getD idx default).sums i
            else nodeTotal ns fuel₁ ((ns.getD idx default).children i)) =
          (if (ns.getD idx default).children i = 0 then (ns.getD idx default).sums i
            else nodeTotal ns f2 ((ns.getD idx default).children i)) := by
        intro i
        split
        · rfl
        · rename_i hc
          rcases hok idx hidx i with h0 | hb
          · exact absurd h0 hc
          · exact ih f2 _ (by omega) (by omega)
      rw [step 0, step 1, step 2, step 3]
    · rw [nodeTotal_out_of_range ns idx (by omega), nodeTotal_out_of_range ns idx (by omega)]

theorem visited_congr {ns ms : List QuadTreeNode} (h : SameShape ns ms) :
    ∀ fuel idx j, visited ns fuel idx j = visited ms fuel idx j := by
  intro fuel
  induction fuel with
  | zero => intro idx j; rfl
  | succ fuel ih =>
    intro idx j
    simp only [visited]
    rw [← (h.2 idx).1, ih, ih, ih, ih]

/-- With strictly increasing children, the visited region lies at or above
the start index. -/
theorem visited_lb (ns : List QuadTreeNode) (hok : ChildOk ns) :
    ∀ fuel idx j, visited ns fuel idx j = true → idx ≤ j := by
  intro fuel
  induction fuel with
  | zero => intro idx j h; exact absurd h (by rw [visited]; simp)
  | succ fuel ih =>
    intro idx j h
    rw [visited] at h
    rcases Bool.or_eq_true_iff.mp h with h1 | h2
    · exact Nat.le_of_eq (by simpa using h1)
    · by_cases hidx : idx < ns.length
      · have hchild : ∀ i : Fin 4, (!((ns.getD idx default).children i == 0) &&
            visited ns fuel ((ns.getD idx default).children i) j) = true → idx ≤ j := by
          intro i hi
          rw [Bool.and_eq_true_iff] at hi
          have hc0 : (ns.getD idx default).children i ≠ 0 := by
            have := hi.1
            simp only [Bool.not_eq_true', beq_eq_false_iff_ne, ne_eq] at this
            exact this
          rcases hok idx hidx i with hl | hb
          · exact absurd hl hc0
          · have := ih _ j hi.2
            omega
        rcases Bool.or_eq_true_iff.mp h2 with h3 | h4
        · rcases Bool.or_eq_true_iff.mp h3 with h5 | h6
          · rcases Bool.or_eq_true_iff.mp h5 with h7 | h8
            · exact hchild 0 h7
            · exact hchild 1 h8
          · exact hchild 2 h6
        · exact hchild 3 h4
      · rw [getD_out_of_range ns idx (by omega)] at h2
        simp [default_children] at h2

theorem rebuiltVal_congr {ns ms : List QuadTreeNode} (h : SameShape ns ms)
    (j : ℕ) (i : Fin 4) : rebuiltVal ns j i = rebuiltVal ms j i := by
  rw [rebuiltVal, rebuiltVal, ← (h.2 j).1, ← h.1, nodeTotal_congr h]

theorem visited_succ_iff (ns : List QuadTreeNode) (fuel idx j : ℕ) :
    visited ns (fuel + 1) idx j = true ↔
      idx = j ∨
      ((ns.getD idx default).children 0 ≠ 0 ∧
        visited ns fuel ((ns.getD idx default).children 0) j = true) ∨
      ((ns.getD idx default).children 1 ≠ 0 ∧
        visited ns fuel ((ns.getD idx default).children 1) j = true) ∨
      ((ns.getD idx default).children 2 ≠ 0 ∧
        visited ns fuel ((ns.getD idx default).children 2) j = true) ∨
      ((ns.getD idx default).children 3 ≠ 0 ∧
        visited ns fuel ((ns.getD idx default).children 3) j = true) := by
  rw [visited]
  simp only [Bool.or_eq_true, Bool.and_eq_true, beq_iff_eq, Bool.not_eq_true',
    beq_eq_false_iff_ne, ne_eq]
  tauto

theorem visited_succ_self (ns : List QuadTreeNode) (fuel idx : ℕ) :
    visited ns (fuel + 1) idx idx = true := by
  rw [visited_succ_iff]
  exact Or.inl rfl

theorem visited_succ_child (ns : List QuadTreeNode) (fuel idx j : ℕ) (k : Fin 4)
    (hc : (ns.getD idx default).children k ≠ 0)
    (hv : visited ns fuel ((ns.getD idx default).children k) j = true) :
    visited ns (fuel + 1) idx j = true := by
  rw [visited_succ_iff]
  fin_cases k
  · exact Or.inr (Or.inl ⟨hc, hv⟩)
  · exact Or.inr (Or.inr (Or.inl ⟨hc, hv⟩))
  · exact Or.inr (Or.inr (Or.inr (Or.inl ⟨hc, hv⟩)))
  · exact Or.inr (Or.inr (Or.inr (Or.inr ⟨hc, hv⟩)))

theorem ite_eq_both {c : Prop} [Decidable c] {w x : ℚ} (h : x = w) :
    (if c then w else x) = w := by
  split
  · rfl
  · exact h

theorem ite_eq_right {c : Prop} [Decidable c] {w x y : ℚ} (hc : ¬ c) (h : x = y) :
    (if c then w else x) = y := by
  rw [if_neg hc]
  exact h

/-- One slot of the build loop: how `buildSlot` transforms the sums of the
current state `t` (which agrees in shape with the original vector `ns`).
`IH` is the induction hypothesis for the recursive call at smaller fuel. -/
theorem buildSlot_spec (fuel : ℕ)
    (IH : ∀ ms idx, ChildOk ms → ms.length - idx ≤ fuel →
      ∀ j (i : Fin 4), ((buildNode fuel ms idx).getD j default).sums i =
        if visited ms fuel idx j = true ∧ (ms.getD j default).children i ≠ 0
        then rebuiltVal ms j i else (ms.getD j default).sums i)
    (ns t : List QuadTreeNode) (idx : ℕ) (k : Fin 4)
    (hshape : SameShape ns t) (hok : ChildOk ns) (hidx : idx < ns.length)
    (hfuel : ns.length - idx ≤ fuel + 1) (j : ℕ) (i : Fin 4) :
    ((buildSlot (buildNode fuel) idx k t).getD j default).sums i =
      if (j = idx ∧ i = k ∧ (ns.getD j default).children i ≠ 0) ∨
         ((ns.getD idx default).children k ≠ 0 ∧
           visited ns fuel ((ns.getD idx default).children k) j = true ∧
           (ns.getD j default).children i ≠ 0)
      then rebuiltVal ns j i
      else (t.getD j default).sums i := by
  have hlen : t.length = ns.length := hshape.1.symm
  have hokt : ChildOk t := childOk_of_sameShape hshape hok
  have hchidx : (t.getD idx default).children = (ns.getD idx default).children :=
    ((hshape.2 idx).1).symm
  rw [buildSlot, hchidx]
  by_cases hc : (ns.getD idx default).children k = 0
  · rw [if_pos hc]
    rw [if_neg]
    rintro (⟨hj, hik, hne⟩ | ⟨hne, _, _⟩)
    · rw [hj, hik] at hne
      exact hne hc
    · exact hne hc
  · rw [if_neg hc]
    have hcb : idx < (ns.getD idx default).children k ∧
        (ns.getD idx default).children k < ns.length := by
      rcases hok idx hidx k with h0 | h1
      · exact absurd h0 hc
      · exact h1
    have hfuel1 : 1 ≤ fuel := by omega
    have hIHt := IH t ((ns.getD idx default).children k) hokt (by omega)
    have hshapet : SameShape t (buildNode fuel t ((ns.getD idx default).children k)) :=
      buildNode_shape fuel t _
    have hshape2 : SameShape ns (buildNode fuel t ((ns.getD idx default).children k)) :=
      sameShape_trans hshape hshapet
    have hlen2 : (buildNode fuel t ((ns.getD idx default).children k)).length = ns.length :=
      hshape2.1.symm
    -- the total written into slot (idx, k) is the recursive subtree total
    have hV : ((buildNode fuel t ((ns.getD idx default).children k)).getD
        ((ns.getD idx default).children k) default).total = rebuiltVal ns idx k := by
      have hvs : visited t fuel ((ns.getD idx default).children k)
          ((ns.getD idx default).children k) = true := by
        rcases fuel with _ | f
        · omega
        · exact visited_succ_self t f _
      have hslot : ∀ m : Fin 4,
          ((buildNode fuel t ((ns.getD idx default).children k)).getD
            ((ns.getD idx default).children k) default).sums m =
          if (ns.getD ((ns.getD idx default).children k) default).children m = 0
          then (ns.getD ((ns.getD idx default).children k) default).sums m
          else nodeTotal ns ns.length
            ((ns.getD ((ns.getD idx default).children k) default).children m) := by
        intro m
        rw [hIHt _ m]
        have hcht : (t.getD ((ns.getD idx default).children k) default).children =
            (ns.getD ((ns.getD idx default).children k) default).children :=
          ((hshape.2 _).1).symm
        by_cases hm : (ns.getD ((ns.getD idx default).children k) default).children m = 0
        · rw [if_neg (by rw [hcht]; tauto), if_pos hm]
          exact (((hshape.2 _).2) m hm).symm
        · rw [if_pos ⟨hvs, by rw [hcht]; exact hm⟩, if_neg hm]
          rw [← rebuiltVal_congr hshape]
          rfl
      rw [QuadTreeNode.total, hslot 0, hslot 1, hslot 2, hslot 3]
      rw [rebuiltVal]
      rw [nodeTotal_stable ns hok ns.length ((ns.length - 1) + 1)
        ((ns.getD idx default).children k) (by omega) (by omega)]
      rw [nodeTotal]
      have hstep : ∀ m : Fin 4,
          (if (ns.getD ((ns.getD idx default).children k) default).children m = 0
            then (ns.getD ((ns.getD idx default).children k) default).sums m
            else nodeTotal ns ns.length
              ((ns.getD ((ns.getD idx default).children k) default).children m)) =
          (if (ns.getD ((ns.getD idx default).children k) default).children m = 0
            then (ns.getD ((ns.getD idx default).children k) default).sums m
            else nodeTotal ns (ns.length - 1)
              ((ns.getD ((ns.getD idx default).children k) default).children m)) := by
        intro m
        split
        · rfl
        · rename_i hm
          rcases hok _ hcb.2 m with h0 | h1
          · exact absurd h0 hm
          · exact nodeTotal_stable ns hok _ _ _ (by omega) (by omega)
      rw [hstep 0, hstep 1, hstep 2, hstep 3]
    by_cases hj : j = idx
    · have hjlen : j < (buildNode fuel t ((ns.getD idx default).children k)).length := by
        omega
      rw [hj, getD_set_self _ _ _ (by omega)]
      by_cases hik : i = k
      · rw [hik]
        rw [QuadTreeNode.setSumAt]
        simp only [Function.update_same]
        rw [hV]
        rw [if_pos (Or.inl ⟨trivial, trivial, hc⟩)]
      · rw [QuadTreeNode.setSumAt]
        simp only [Function.update_noteq hik]
        rw [hIHt idx i]
        have hnv : ¬ (visited t fuel ((ns.getD idx default).children k) idx = true ∧
            (t.getD idx default).children i ≠ 0) := by
          rintro ⟨hv, _⟩
          have := visited_lb t hokt fuel _ idx hv
          omega
        rw [if_neg hnv]
        rw [if_neg]
        rintro (⟨_, hik2, _⟩ | ⟨_, hv, _⟩)
        · exact hik hik2
        · have hv2 : visited t fuel ((ns.getD idx default).children k) idx = true := by
            rw [← visited_congr hshape]
            exact hv
          have := visited_lb t hokt fuel _ idx hv2
          omega
    · rw [getD_set_ne _ _ _ _ hj]
      rw [hIHt j i]
      have hvis : visited t fuel ((ns.getD idx default).children k) j =
          visited ns fuel ((ns.getD idx default).children k) j :=
        (visited_congr hshape fuel _ j).symm
      have hchj : (t.getD j default).children = (ns.getD j default).children :=
        ((hshape.2 j).1).symm
      by_cases hcond : visited ns fuel ((ns.getD idx default).children k) j = true ∧
          (ns.getD j default).children i ≠ 0
      · rw [if_pos (by rw [hvis, hchj]; exact hcond)]
        rw [if_pos (Or.inr ⟨hc, hcond.1, hcond.2⟩)]
        exact (rebuiltVal_congr hshape j i).symm
      · rw [if_neg (by rw [hvis, hchj]; exact hcond)]
        rw [if_neg]
        rintro (⟨hj2, _, _⟩ | ⟨_, hv, hch⟩)
        · exact hj hj2
        · exact hcond ⟨hv, hch⟩

/-- Full characterization of `QuadTreeNode::build`: every slot in the visited
region whose child is non-leaf is overwritten with the recursive subtree
total (a function of the shape only); every other slot is untouched. -/
theorem buildNode_spec :
    ∀ (fuel : ℕ) (ns : List QuadTreeNode) (idx : ℕ), ChildOk ns →
      ns.length - idx ≤ fuel →
      ∀ j (i : Fin 4), ((buildNode fuel ns idx).getD j default).sums i =
        if visited ns fuel idx j = true ∧ (ns.getD j default).children i ≠ 0
        then rebuiltVal ns j i else (ns.getD j default).sums i := by
  intro fuel
  induction fuel with
  | zero =>
    intro ns idx hok hfuel j i
    rw [if_neg]
    · rfl
    · rintro ⟨hv, _⟩
      simp [visited] at hv
  | succ fuel ih =>
    intro ns idx hok hfuel j i
    by_cases hidx : idx < ns.length
    · rw [buildNode]
      have sh0 : SameShape ns (buildSlot (buildNode fuel) idx 0 ns) :=
        buildSlot_shape _ (fun a b => buildNode_shape fuel a b) idx 0 ns
      have sh1 : SameShape ns
          (buildSlot (buildNode fuel) idx 1 (buildSlot (buildNode fuel) idx 0 ns)) :=
        sameShape_trans sh0 (buildSlot_shape _ (fun a b => buildNode_shape fuel a b) idx 1 _)
      have sh2 : SameShape ns (buildSlot (buildNode fuel) idx 2
          (buildSlot (buildNode fuel) idx 1 (buildSlot (buildNode fuel) idx 0 ns))) :=
        sameShape_trans sh1 (buildSlot_shape _ (fun a b => buildNode_shape fuel a b) idx 2 _)
      have e0 := buildSlot_spec fuel ih ns ns idx 0 (sameShape_refl ns) hok hidx hfuel j i
      have e1 := buildSlot_spec fuel ih ns _ idx 1 sh0 hok hidx hfuel j i
      have e2 := buildSlot_spec fuel ih ns _ idx 2 sh1 hok hidx hfuel j i
      have e3 := buildSlot_spec fuel ih ns _ idx 3 sh2 hok hidx hfuel j i
      rw [e3, e2, e1, e0]
      by_cases htgt : visited ns (fuel + 1) idx j = true ∧
          (ns.getD j default).children i ≠ 0
      · rw [if_pos htgt]
        obtain ⟨hv, hch⟩ := htgt
        rw [visited_succ_iff] at hv
        rcases hv with h0 | h1 | h2 | h3 | h4
        · fin_cases i
          · exact ite_eq_both (ite_eq_both (ite_eq_both
              (if_pos (Or.inl ⟨h0.symm, rfl, hch⟩))))
          · exact ite_eq_both (ite_eq_both (if_pos (Or.inl ⟨h0.symm, rfl, hch⟩)))
          · exact ite_eq_both (if_pos (Or.inl ⟨h0.symm, rfl, hch⟩))
          · exact if_pos (Or.inl ⟨h0.symm, rfl, hch⟩)
        · exact ite_eq_both (ite_eq_both (ite_eq_both
            (if_pos (Or.inr ⟨h1.1, h1.2, hch⟩))))
        · exact ite_eq_both (ite_eq_both (if_pos (Or.inr ⟨h2.1, h2.2, hch⟩)))
        · exact ite_eq_both (if_pos (Or.inr ⟨h3.1, h3.2, hch⟩))
        · exact if_pos (Or.inr ⟨h4.1, h4.2, hch⟩)
      · rw [if_neg htgt]
        have hnotk : ∀ kk : Fin 4,
            ¬ ((j = idx ∧ i = kk ∧ (ns.getD j default).children i ≠ 0) ∨
              ((ns.getD idx default).children kk ≠ 0 ∧
                visited ns fuel ((ns.getD idx default).children kk) j = true ∧
                (ns.getD j default).children i ≠ 0)) := by
          intro kk
          rintro (⟨hj, hik, hch⟩ | ⟨hckk, hvk, hch⟩)
          · refine htgt ⟨?_, hch⟩
            rw [visited_succ_iff]
            exact Or.inl hj.symm
          · exact htgt ⟨visited_succ_child ns fuel idx j kk hckk hvk, hch⟩
        exact ite_eq_right (hnotk 3) (ite_eq_right (hnotk 2)
          (ite_eq_right (hnotk 1) (ite_eq_right (hnotk 0) rfl)))
    · have hdef : ns.getD idx default = default := getD_out_of_range ns idx (by omega)
      have hskip : buildNode (fuel + 1) ns idx = ns := by
        have hdef2 := hdef
        simp only [List.getD, List.get?_eq_getElem?] at hdef2
        rw [buildNode]
        simp [buildSlot, List.getD, List.get?_eq_getElem?, hdef2, default_children]
      rw [hskip]
      rw [if_neg]
      rintro ⟨hv, hch⟩
      rw [visited_succ_iff] at hv
      rcases hv with h0 | h1 | h2 | h3 | h4
      · rw [← h0] at hch
        rw [hdef] at hch
        exact hch (default_children i)
      · rw [hdef] at h1
        exact h1.1 (default_children 0)
      · rw [hdef] at h2
        exact h2.1 (default_children 1)
      · rw [hdef] at h3
        exact h3.1 (default_children 2)
      · rw [hdef] at h4
        exact h4.1 (default_children 3)

theorem qtn_ext {a b : QuadTreeNode} (h1 : ∀ i, a.sums i = b.sums i)
    (h2 : ∀ i, a.children i = b.children i) : a = b := by
  cases a
  cases b
  have hs : _ = _ := funext h1
  have hc : _ = _ := funext h2
  simp only at hs hc
  rw [QuadTreeNode.mk.injEq]
  exact ⟨hs, hc⟩

theorem list_ext_getD {ns ms : List QuadTreeNode} (h : ns.length = ms.length)
    (h2 : ∀ j, ns.getD j default = ms.getD j default) : ns = ms := by
  apply Array.ext.extAux ns ms h
  intro i hi1 hi2
  have := h2 i
  rw [List.getD_eq_getElem ns default hi1, List.getD_eq_getElem ms default hi2] at this
  exact this

/-- Idempotence at the node-vector level: rebuilding a built vector changes
nothing, because every value written is a function of the shape alone and the
shape is preserved. -/
theorem buildNode_idem (ns : List QuadTreeNode) (hok : ChildOk ns) (fuel : ℕ)
    (hfuel : ns.length ≤ fuel) :
    buildNode fuel (buildNode fuel ns 0) 0 = buildNode fuel ns 0 := by
  have hsh : SameShape ns (buildNode fuel ns 0) := buildNode_shape fuel ns 0
  have hsh2 : SameShape (buildNode fuel ns 0) (buildNode fuel (buildNode fuel ns 0) 0) :=
    buildNode_shape fuel _ 0
  have hlen : (buildNode fuel ns 0).length = ns.length := hsh.1.symm
  have hokm : ChildOk (buildNode fuel ns 0) := childOk_of_sameShape hsh hok
  apply list_ext_getD hsh2.1.symm
  intro j
  apply qtn_ext
  · intro i
    rw [buildNode_spec fuel (buildNode fuel ns 0) 0 hokm (by omega) j i]
    have espec := buildNode_spec fuel ns 0 hok (by omega) j i
    have hvis : visited (buildNode fuel ns 0) fuel 0 j = visited ns fuel 0 j :=
      (visited_congr hsh fuel 0 j).symm
    have hch : ((buildNode fuel ns 0).getD j default).children =
        (ns.getD j default).children := ((hsh.2 j).1).symm
    have hreb : rebuiltVal (buildNode fuel ns 0) j i = rebuiltVal ns j i :=
      (rebuiltVal_congr hsh j i).symm
    rw [hvis, hch, hreb]
    by_cases hcond : visited ns fuel 0 j = true ∧ (ns.getD j default).children i ≠ 0
    · rw [if_pos hcond]
      rw [espec, if_pos hcond]
    · rw [if_neg hcond]
  · intro i
    exact congrFun ((hsh2.2 j).1).symm i

theorem buildNode_length (fuel : ℕ) (ns : List QuadTreeNode) (idx : ℕ) :
    (buildNode fuel ns idx).length = ns.length :=
  (buildNode_shape fuel ns idx).1.symm

/-- Idempotence of `DTree::build`. -/
theorem dtree_build_idem (t : DTree) (hok : ChildOk t.nodes) :
    (t.build).build = t.build := by
  rw [DTree.build, DTree.build]
  have hlen : (buildNode t.nodes.length t.nodes 0).length = t.nodes.length :=
    buildNode_length _ _ _
  have hidem := buildNode_idem t.nodes hok t.nodes.length (le_refl _)
  simp only [hlen, hidem]

theorem gmfStep_mono (tns ons : List QuadTreeNode)
    (rec : Cur → Cur → ℚ → ℚ → MajSt → MajSt)
    (hrec : ∀ c1 c2 f1 f2 st, (st : MajSt).best ≤ (rec c1 c2 f1 f2 st).best)
    (c1 c2 : Cur) (f1 f2 : ℚ) (i : Fin 4) (st : MajSt) :
    st.best ≤ (gmfStep tns ons rec c1 c2 f1 f2 i st).best := by
  rw [gmfStep]
  split
  · split
    · rename_i hgt
      exact le_of_lt hgt
    · exact le_refl _
  · exact hrec _ _ _ _ st

theorem gmfGo_mono (tns ons : List QuadTreeNode) :
    ∀ fuel (c1 c2 : Cur) (f1 f2 : ℚ) (st : MajSt),
      st.best ≤ (gmfGo tns ons fuel c1 c2 f1 f2 st).best := by
  intro fuel
  induction fuel with
  | zero => intro c1 c2 f1 f2 st; exact le_refl _
  | succ fuel ih =>
    intro c1 c2 f1 f2 st
    rw [gmfGo]
    refine le_trans (gmfStep_mono tns ons _ (fun a b c d e => ih a b c d e) c1 c2 f1 f2 0 st) ?_
    refine le_trans (gmfStep_mono tns ons _ (fun a b c d e => ih a b c d e) c1 c2 f1 f2 1 _) ?_
    refine le_trans (gmfStep_mono tns ons _ (fun a b c d e => ih a b c d e) c1 c2 f1 f2 2 _) ?_
    exact gmfStep_mono tns ons _ (fun a b c d e => ih a b c d e) c1 c2 f1 f2 3 _

theorem gmfStep_stok (tns ons : List QuadTreeNode)
    (rec : Cur → Cur → ℚ → ℚ → MajSt → MajSt)
    (hrec : ∀ c1 c2 f1 f2 st, MajStOk st → MajStOk (rec c1 c2 f1 f2 st))
    (c1 c2 : Cur) (f1 f2 : ℚ) (i : Fin 4) (st : MajSt) (hst : MajStOk st) :
    MajStOk (gmfStep tns ons rec c1 c2 f1 f2 i st) := by
  rw [gmfStep]
  split
  · split
    · have hp : (0 : ℚ) < max (pdfAt tns c1 f1 i) EPSILON :=
        lt_max_of_lt_right (by norm_num [EPSILON])
      have ho : (0 : ℚ) < max (pdfAt ons c2 f2 i) EPSILON :=
        lt_max_of_lt_right (by norm_num [EPSILON])
      exact ⟨hp, ho, le_refl _⟩
    · exact hst
  · exact hrec _ _ _ _ st hst

theorem gmfGo_stok (tns ons : List QuadTreeNode) :
    ∀ fuel (c1 c2 : Cur) (f1 f2 : ℚ) (st : MajSt), MajStOk st →
      MajStOk (gmfGo tns ons fuel c1 c2 f1 f2 st) := by
  intro fuel
  induction fuel with
  | zero => intro c1 c2 f1 f2 st hst; exact hst
  | succ fuel ih =>
    intro c1 c2 f1 f2 st hst
    rw [gmfGo]
    refine gmfStep_stok tns ons _ (fun a b c d e he => ih a b c d e he) c1 c2 f1 f2 3 _ ?_
    refine gmfStep_stok tns ons _ (fun a b c d e he => ih a b c d e he) c1 c2 f1 f2 2 _ ?_
    refine gmfStep_stok tns ons _ (fun a b c d e he => ih a b c d e he) c1 c2 f1 f2 1 _ ?_
    exact gmfStep_stok tns ons _ (fun a b c d e he => ih a b c d e he) c1 c2 f1 f2 0 st hst

/-- If the final running maximum is at most `A`, then `A` majorizes at every
position where the walk terminates. -/
theorem majCheckGo_of_le (tns ons : List QuadTreeNode) :
    ∀ fuel (c1 c2 : Cur) (f1 f2 : ℚ) (st : MajSt) (A : ℚ),
      (gmfGo tns ons fuel c1 c2 f1 f2 st).best ≤ A →
      majCheckGo tns ons A fuel c1 c2 f1 f2 = true := by
  intro fuel
  induction fuel with
  | zero => intro c1 c2 f1 f2 st A h; rfl
  | succ fuel ih =>
    intro c1 c2 f1 f2 st A h
    rw [gmfGo] at h
    rw [majCheckGo]
    have hmono := fun (k : Fin 4) (st0 : MajSt) =>
      gmfStep_mono tns ons _ (fun a b c d e => gmfGo_mono tns ons fuel a b c d e)
        c1 c2 f1 f2 k st0
    have key : ∀ (k : Fin 4) (st0 : MajSt),
        (gmfStep tns ons (gmfGo tns ons fuel) c1 c2 f1 f2 k st0).best ≤ A →
        majCheckStep tns ons A (majCheckGo tns ons A fuel) c1 c2 f1 f2 k = true := by
      intro k st0 hk
      rw [gmfStep] at hk
      rw [majCheckStep]
      split
      · rename_i hterm
        rw [if_pos hterm] at hk
        rw [decide_eq_true_eq]
        have hp : (0 : ℚ) < max (pdfAt tns c1 f1 k) EPSILON :=
          lt_max_of_lt_right (by norm_num [EPSILON])
        have hr : max (pdfAt ons c2 f2 k) EPSILON / max (pdfAt tns c1 f1 k) EPSILON ≤ A := by
          rcases lt_or_ge st0.best
              (max (pdfAt ons c2 f2 k) EPSILON / max (pdfAt tns c1 f1 k) EPSILON) with hgt | hle
          · rw [if_pos hgt] at hk
            exact hk
          · rw [if_neg (not_lt_of_ge hle)] at hk
            exact le_trans hle hk
        rw [div_le_iff₀ hp] at hr
        exact hr
      · rename_i hterm
        rw [if_neg hterm] at hk
        exact ih _ _ _ _ st0 A hk
    have h3 : (gmfStep tns ons (gmfGo tns ons fuel) c1 c2 f1 f2 3
        (gmfStep tns ons (gmfGo tns ons fuel) c1 c2 f1 f2 2
          (gmfStep tns ons (gmfGo tns ons fuel) c1 c2 f1 f2 1
            (gmfStep tns ons (gmfGo tns ons fuel) c1 c2 f1 f2 0 st)))).best ≤ A := h
    have h2 := le_trans (hmono 3 _) h3
    have h1 := le_trans (hmono 2 _) h2
    have h0 := le_trans (hmono 1 _) h1
    rw [Bool.and_eq_true, Bool.and_eq_true, Bool.and_eq_true]
    exact ⟨⟨⟨key 0 st h0, key 1 _ h1⟩, key 2 _ h2⟩, key 3 _ h3⟩

/-- `getMajorizingFactor` returns a strictly positive pair (each component is
either 1 from the initial value or has been floored to at least EPSILON). -/
theorem getMajorizingFactor_pos (fuel : ℕ) (tns ons : List QuadTreeNode) :
    0 < (getMajorizingFactor fuel tns ons).1 ∧ 0 < (getMajorizingFactor fuel tns ons).2 := by
  have h := gmfGo_stok tns ons fuel ⟨0, none⟩ ⟨0, none⟩ 1 1 ⟨0, 1, 1⟩
    ⟨by norm_num, by norm_num, by norm_num⟩
  exact ⟨h.1, h.2.1⟩

/-- The scalar factor `A = pdf_other / pdf_this` majorizes at every position
where the `getMajorizingFactor` walk terminates. -/
theorem majCheck_getMajorizingFactor (fuel : ℕ) (tns ons : List QuadTreeNode) :
    majCheckGo tns ons
      ((getMajorizingFactor fuel tns ons).2 / (getMajorizingFactor fuel tns ons).1)
      fuel ⟨0, none⟩ ⟨0, none⟩ 1 1 = true := by
  apply majCheckGo_of_le tns ons fuel ⟨0, none⟩ ⟨0, none⟩ 1 1 ⟨0, 1, 1⟩
  have h := gmfGo_stok tns ons fuel ⟨0, none⟩ ⟨0, none⟩ 1 1 ⟨0, 1, 1⟩
    ⟨by norm_num, by norm_num, by norm_num⟩
  exact h.2.2

theorem getD_append_left {α : Type} [Inhabited α] (l l2 : List α) (j : ℕ)
    (h : j < l.length) : (l ++ l2).getD j default = l.getD j default := by
  simp only [List.getD, List.get?_eq_getElem?]
  rw [List.getElem?_append_left h]

theorem getD_append_self {α : Type} [Inhabited α] (l : List α) (x : α) :
    (l ++ [x]).getD l.length default = x := by
  simp only [List.getD, List.get?_eq_getElem?]
  rw [List.getElem?_concat_length]
  rfl

theorem getD_append_at {α : Type} [Inhabited α] (l : List α) (x : α) (n : ℕ)
    (h : n = l.length) : (l ++ [x]).getD n default = x := by
  rw [h]
  exact getD_append_self l x

/-- At a position with a healthy denominator, the four slot pdfs add up to
`4 * factor`: every level of the walk carries full conditional measure. -/
theorem pdfAt_total (ns : List QuadTreeNode) (c : Cur) (f : ℚ)
    (h : ¬ (curDenom ns c < EPSILON)) :
    pdfAt ns c f 0 + pdfAt ns c f 1 + pdfAt ns c f 2 + pdfAt ns c f 3 = 4 * f := by
  have hD : curDenom ns c ≠ 0 := by
    intro h0
    apply h
    rw [h0]
    norm_num [EPSILON]
  rw [pdfAt, pdfAt, pdfAt, pdfAt, if_neg h, if_neg h, if_neg h, if_neg h]
  rcases c with ⟨idx, slot⟩
  rcases slot with _ | j
  · have hden : curDenom ns ⟨idx, none⟩ = (curNode ns ⟨idx, none⟩).total := rfl
    have hslot : ∀ i : Fin 4, slotOf ⟨idx, none⟩ i = i := fun i => rfl
    rw [hden] at hD ⊢
    rw [hslot 0, hslot 1, hslot 2, hslot 3]
    rw [QuadTreeNode.total] at hD ⊢
    field_simp
    ring
  · have hden : curDenom ns ⟨idx, some j⟩ = (curNode ns ⟨idx, some j⟩).sums j * 4 := rfl
    have hslot : ∀ i : Fin 4, slotOf ⟨idx, some j⟩ i = j := fun i => rfl
    rw [hden] at hD ⊢
    rw [hslot 0, hslot 1, hslot 2, hslot 3]
    have hs : (curNode ns ⟨idx, some j⟩).sums j ≠ 0 := by
      intro h0
      rw [h0, zero_mul] at hD
      exact hD rfl
    field_simp
    ring

/-- Under `walkOk`, the new pdf integrates to its incoming factor over the
terminal partition of the walk. -/
theorem walkSum_proj_new (oldNs newNs : List QuadTreeNode) :
    ∀ fuel cOld cNew (fOld fNew : ℚ), walkOk oldNs newNs fuel cOld cNew = true →
      walkSum oldNs newNs (fun _ n => n) fuel cOld cNew fOld fNew = fNew := by
  intro fuel
  induction fuel with
  | zero =>
    intro cOld cNew fOld fNew h
    exact absurd h (by rw [walkOk]; simp)
  | succ fuel ih =>
    intro cOld cNew fOld fNew h
    rw [walkOk] at h
    rw [Bool.and_eq_true, Bool.and_eq_true, Bool.and_eq_true, Bool.and_eq_true,
      Bool.and_eq_true] at h
    obtain ⟨⟨⟨⟨⟨hdo, hdn⟩, h0⟩, h1⟩, h2⟩, h3⟩ := h
    have hdnew : ¬ (curDenom newNs cNew < EPSILON) := by
      rw [Bool.not_eq_true'] at hdn
      exact of_decide_eq_false hdn
    have step : ∀ (k : Fin 4),
        (augTermAt oldNs newNs cOld cNew k ||
          walkOk oldNs newNs fuel (contCur oldNs cOld k) (contCur newNs cNew k)) = true →
        (if augTermAt oldNs newNs cOld cNew k
          then pdfAt newNs cNew fNew k
          else walkSum oldNs newNs (fun _ n => n) fuel
            (contCur oldNs cOld k) (contCur newNs cNew k)
            (pdfAt oldNs cOld fOld k) (pdfAt newNs cNew fNew k)) =
          pdfAt newNs cNew fNew k := by
      intro k hk
      split
      · rfl
      · rename_i hterm
        rcases Bool.or_eq_true_iff.mp hk with ht | hw
        · rw [ht] at hterm
          exact absurd rfl hterm
        · exact ih _ _ _ _ hw
    rw [walkSum]
    rw [step 0 h0, step 1 h1, step 2 h2, step 3 h3]
    have := pdfAt_total newNs cNew fNew hdnew
    linarith

/-- Under `walkOk`, the old pdf integrates to its incoming factor as well. -/
theorem walkSum_proj_old (oldNs newNs : List QuadTreeNode) :
    ∀ fuel cOld cNew (fOld fNew : ℚ), walkOk oldNs newNs fuel cOld cNew = true →
      walkSum oldNs newNs (fun o _ => o) fuel cOld cNew fOld fNew = fOld := by
  intro fuel
  induction fuel with
  | zero =>
    intro cOld cNew fOld fNew h
    exact absurd h (by rw [walkOk]; simp)
  | succ fuel ih =>
    intro cOld cNew fOld fNew h
    rw [walkOk] at h
    rw [Bool.and_eq_true, Bool.and_eq_true, Bool.and_eq_true, Bool.and_eq_true,
      Bool.and_eq_true] at h
    obtain ⟨⟨⟨⟨⟨hdo, hdn⟩, h0⟩, h1⟩, h2⟩, h3⟩ := h
    have hdold : ¬ (curDenom oldNs cOld < EPSILON) := by
      rw [Bool.not_eq_true'] at hdo
      exact of_decide_eq_false hdo
    have step : ∀ (k : Fin 4),
        (augTermAt oldNs newNs cOld cNew k ||
          walkOk oldNs newNs fuel (contCur oldNs cOld k) (contCur newNs cNew k)) = true →
        (if augTermAt oldNs newNs cOld cNew k
          then pdfAt oldNs cOld fOld k
          else walkSum oldNs newNs (fun o _ => o) fuel
            (contCur oldNs cOld k) (contCur newNs cNew k)
            (pdfAt oldNs cOld fOld k) (pdfAt newNs cNew fNew k)) =
          pdfAt oldNs cOld fOld k := by
      intro k hk
      split
      · rfl
      · rename_i hterm
        rcases Bool.or_eq_true_iff.mp hk with ht | hw
        · rw [ht] at hterm
          exact absurd rfl hterm
        · exact ih _ _ _ _ hw
    rw [walkSum]
    rw [step 0 h0, step 1 h1, step 2 h2, step 3 h3]
    have := pdfAt_total oldNs cOld fOld hdold
    linarith

/-- The un-clipped residual walk is the linear combination of the two pdf
walks, scaled by `1/(A-1)`. -/
theorem walkSum_lin (oldNs newNs : List QuadTreeNode) (A : ℚ) :
    ∀ fuel cOld cNew (fOld fNew : ℚ),
      walkSum oldNs newNs (fun o n => (A * n - o) / (A - 1)) fuel cOld cNew fOld fNew =
        (A * walkSum oldNs newNs (fun _ n => n) fuel cOld cNew fOld fNew -
          walkSum oldNs newNs (fun o _ => o) fuel cOld cNew fOld fNew) / (A - 1) := by
  intro fuel
  induction fuel with
  | zero =>
    intro cOld cNew fOld fNew
    rw [walkSum, walkSum, walkSum]
    norm_num
  | succ fuel ih =>
    intro cOld cNew fOld fNew
    have step : ∀ (k : Fin 4),
        (if augTermAt oldNs newNs cOld cNew k
          then (A * pdfAt newNs cNew fNew k - pdfAt oldNs cOld fOld k) / (A - 1)
          else walkSum oldNs newNs (fun o n => (A * n - o) / (A - 1)) fuel
            (contCur oldNs cOld k) (contCur newNs cNew k)
            (pdfAt oldNs cOld fOld k) (pdfAt newNs cNew fNew k)) =
        (A * (if augTermAt oldNs newNs cOld cNew k
            then pdfAt newNs cNew fNew k
            else walkSum oldNs newNs (fun _ n => n) fuel
              (contCur oldNs cOld k) (contCur newNs cNew k)
              (pdfAt oldNs cOld fOld k) (pdfAt newNs cNew fNew k)) -
          (if augTermAt oldNs newNs cOld cNew k
            then pdfAt oldNs cOld fOld k
            else walkSum oldNs newNs (fun o _ => o) fuel
              (contCur oldNs cOld k) (contCur newNs cNew k)
              (pdfAt oldNs cOld fOld k) (pdfAt newNs cNew fNew k))) / (A - 1) := by
      intro k
      split
      · rfl
      · exact ih _ _ _ _
    rw [walkSum, walkSum, walkSum]
    rw [step 0, step 1, step 2, step 3]
    ring

/-- Under `walkNC`, the residual walk with clipping equals the un-clipped
linear walk. -/
theorem walkSum_nc (oldNs newNs : List QuadTreeNode) (A : ℚ) :
    ∀ fuel cOld cNew (fOld fNew : ℚ),
      walkNC oldNs newNs A fuel cOld cNew fOld fNew = true →
      walkSum oldNs newNs (fun o n => computeAugmentedPdf o n A) fuel cOld cNew fOld fNew =
        walkSum oldNs newNs (fun o n => (A * n - o) / (A - 1)) fuel cOld cNew fOld fNew := by
  intro fuel
  induction fuel with
  | zero => intro cOld cNew fOld fNew _; rfl
  | succ fuel ih =>
    intro cOld cNew fOld fNew h
    rw [walkNC] at h
    rw [Bool.and_eq_true, Bool.and_eq_true, Bool.and_eq_true] at h
    obtain ⟨⟨⟨h0, h1⟩, h2⟩, h3⟩ := h
    have step : ∀ (k : Fin 4),
        (if augTermAt oldNs newNs cOld cNew k
          then decide (0 ≤ (A * pdfAt newNs cNew fNew k - pdfAt oldNs cOld fOld k) / (A - 1))
          else walkNC oldNs newNs A fuel (contCur oldNs cOld k) (contCur newNs cNew k)
            (pdfAt oldNs cOld fOld k) (pdfAt newNs cNew fNew k)) = true →
        (if augTermAt oldNs newNs cOld cNew k
          then computeAugmentedPdf (pdfAt oldNs cOld fOld k) (pdfAt newNs cNew fNew k) A
          else walkSum oldNs newNs (fun o n => computeAugmentedPdf o n A) fuel
            (contCur oldNs cOld k) (contCur newNs cNew k)
            (pdfAt oldNs cOld fOld k) (pdfAt newNs cNew fNew k)) =
        (if augTermAt oldNs newNs cOld cNew k
          then (A * pdfAt newNs cNew fNew k - pdfAt oldNs cOld fOld k) / (A - 1)
          else walkSum oldNs newNs (fun o n => (A * n - o) / (A - 1)) fuel
            (contCur oldNs cOld k) (contCur newNs cNew k)
            (pdfAt oldNs cOld fOld k) (pdfAt newNs cNew fNew k)) := by
      intro k hk
      split
      · rename_i hterm
        rw [if_pos hterm, decide_eq_true_eq] at hk
        rw [computeAugmentedPdf]
        exact max_eq_right hk
      · rename_i hterm
        rw [if_neg hterm] at hk
        exact ih _ _ _ _ hk
    rw [walkSum, walkSum]
    rw [step 0 h0, step 1 h1, step 2 h2, step 3 h3]

theorem setSumAt_children (n : QuadTreeNode) (i : Fin 4) (v : ℚ) :
    (n.setSumAt i v).children = n.children :=
  rfl

theorem setChildAt_sums (n : QuadTreeNode) (i : Fin 4) (c : ℕ) :
    (n.setChildAt i c).sums = n.sums :=
  rfl

theorem setSumAt_sums_self (n : QuadTreeNode) (i : Fin 4) (v : ℚ) :
    (n.setSumAt i v).sums i = v := by
  rw [QuadTreeNode.setSumAt]
  exact Function.update_same i v n.sums

theorem setSumAt_sums_ne (n : QuadTreeNode) (i : Fin 4) (v : ℚ) (i' : Fin 4)
    (h : i' ≠ i) : (n.setSumAt i v).sums i' = n.sums i' := by
  rw [QuadTreeNode.setSumAt]
  exact Function.update_noteq h v n.sums

theorem setChildAt_children_self (n : QuadTreeNode) (i : Fin 4) (c : ℕ) :
    (n.setChildAt i c).children i = c := by
  rw [QuadTreeNode.setChildAt]
  exact Function.update_same i c n.children

theorem setChildAt_children_ne (n : QuadTreeNode) (i : Fin 4) (c : ℕ) (i' : Fin 4)
    (h : i' ≠ i) : (n.setChildAt i c).children i' = n.children i' := by
  rw [QuadTreeNode.setChildAt]
  exact Function.update_noteq h c n.children

/-- One slot of the `buildAugmented` construction: frame, the update to the
current node, and (for a descending slot) the integral of the freshly built
child subtree.  `IH` is the full specification of the recursive call. -/
theorem augSlot_spec (oldNs newNs : List QuadTreeNode) (A : ℚ) (fuel : ℕ)
    (IH : ∀ cOld cNew (fOld fNew : ℚ) (acc : List QuadTreeNode) (selfIdx : ℕ),
      selfIdx < acc.length →
      (acc.getD selfIdx default).children = (fun _ => 0) →
      acc.length ≤ (augGo oldNs newNs A fuel cOld cNew fOld fNew acc selfIdx).length ∧
      (∀ j, j < acc.length → j ≠ selfIdx →
        (augGo oldNs newNs A fuel cOld cNew fOld fNew acc selfIdx).getD j default =
          acc.getD j default) ∧
      (walkOk oldNs newNs fuel cOld cNew = true →
        ∀ G, fuel ≤ G → ∀ ms : List QuadTreeNode,
          ms.getD selfIdx default =
            (augGo oldNs newNs A fuel cOld cNew fOld fNew acc selfIdx).getD selfIdx default →
          (∀ j, acc.length ≤ j →
            j < (augGo oldNs newNs A fuel cOld cNew fOld fNew acc selfIdx).length →
            ms.getD j default =
              (augGo oldNs newNs A fuel cOld cNew fOld fNew acc selfIdx).getD j default) →
          ∀ g, integNode ms G selfIdx g =
            g * walkSum oldNs newNs (fun o n => computeAugmentedPdf o n A)
              fuel cOld cNew fOld fNew))
    (cOld cNew : Cur) (fOld fNew : ℚ) (k : Fin 4) (t : List QuadTreeNode) (selfIdx : ℕ)
    (hself : selfIdx < t.length) :
    t.length ≤ (augSlot oldNs newNs A (augGo oldNs newNs A fuel)
        cOld cNew fOld fNew k t selfIdx).length ∧
    (∀ j, j < t.length → j ≠ selfIdx →
      (augSlot oldNs newNs A (augGo oldNs newNs A fuel)
          cOld cNew fOld fNew k t selfIdx).getD j default = t.getD j default) ∧
    (augTermAt oldNs newNs cOld cNew k = true →
      (augSlot oldNs newNs A (augGo oldNs newNs A fuel)
          cOld cNew fOld fNew k t selfIdx).getD selfIdx default =
        (t.getD selfIdx default).setSumAt k
          (computeAugmentedPdf (pdfAt oldNs cOld fOld k) (pdfAt newNs cNew fNew k) A)) ∧
    (augTermAt oldNs newNs cOld cNew k = false →
      (augSlot oldNs newNs A (augGo oldNs newNs A fuel)
          cOld cNew fOld fNew k t selfIdx).getD selfIdx default =
        ((t.getD selfIdx default).setChildAt k t.length).setSumAt k
          (computeAugmentedPdf (pdfAt oldNs cOld fOld k) (pdfAt newNs cNew fNew k) A)) ∧
    (augTermAt oldNs newNs cOld cNew k = false →
      walkOk oldNs newNs fuel (contCur oldNs cOld k) (contCur newNs cNew k) = true →
      ∀ G, fuel ≤ G → ∀ ms : List QuadTreeNode,
        (∀ j, t.length ≤ j →
          j < (augSlot oldNs newNs A (augGo oldNs newNs A fuel)
            cOld cNew fOld fNew k t selfIdx).length →
          ms.getD j default =
            (augSlot oldNs newNs A (augGo oldNs newNs A fuel)
              cOld cNew fOld fNew k t selfIdx).getD j default) →
        ∀ g, integNode ms G t.length g =
          g * walkSum oldNs newNs (fun o n => computeAugmentedPdf o n A)
            fuel (contCur oldNs cOld k) (contCur newNs cNew k)
            (pdfAt oldNs cOld fOld k) (pdfAt newNs cNew fNew k)) := by
  by_cases hterm : augTermAt oldNs newNs cOld cNew k = true
  · have hu : augSlot oldNs newNs A (augGo oldNs newNs A fuel)
        cOld cNew fOld fNew k t selfIdx =
        t.set selfIdx ((t.getD selfIdx default).setSumAt k
          (computeAugmentedPdf (pdfAt oldNs cOld fOld k) (pdfAt newNs cNew fNew k) A)) := by
      rw [augSlot, if_pos hterm]
    rw [hu]
    refine ⟨le_of_eq (List.length_set t _ _).symm, ?_, ?_, ?_, ?_⟩
    · intro j hj hjne
      exact getD_set_ne _ _ _ _ hjne
    · intro _
      exact getD_set_self _ _ _ hself
    · intro hfalse
      rw [hterm] at hfalse
      exact absurd hfalse (by simp)
    · intro hfalse
      rw [hterm] at hfalse
      exact absurd hfalse (by simp)
  · rw [Bool.not_eq_true] at hterm
    have hu : augSlot oldNs newNs A (augGo oldNs newNs A fuel)
        cOld cNew fOld fNew k t selfIdx =
        augGo oldNs newNs A fuel (contCur oldNs cOld k) (contCur newNs cNew k)
          (pdfAt oldNs cOld fOld k) (pdfAt newNs cNew fNew k)
          ((t.set selfIdx
            (((t.getD selfIdx default).setChildAt k t.length).setSumAt k
              (computeAugmentedPdf (pdfAt oldNs cOld fOld k)
                (pdfAt newNs cNew fNew k) A))) ++
            [QuadTreeNode.mk
              (fun _ => computeAugmentedPdf (pdfAt oldNs cOld fOld k)
                (pdfAt newNs cNew fNew k) A / 4)
              (fun _ => 0)])
          t.length := by
      rw [augSlot, if_neg (by rw [hterm]; exact Bool.false_ne_true)]
    set acc2 := (t.set selfIdx
        (((t.getD selfIdx default).setChildAt k t.length).setSumAt k
          (computeAugmentedPdf (pdfAt oldNs cOld fOld k)
            (pdfAt newNs cNew fNew k) A))) ++
        [QuadTreeNode.mk
          (fun _ => computeAugmentedPdf (pdfAt oldNs cOld fOld k)
            (pdfAt newNs cNew fNew k) A / 4)
          (fun _ => 0)] with hacc2
    have hlen2 : acc2.length = t.length + 1 := by
      rw [hacc2]
      simp
    have hfresh2 : (acc2.getD t.length default).children = (fun _ => 0) := by
      rw [hacc2]
      rw [getD_append_at _ _ _ (by simp)]
    obtain ⟨ihL, ihF, ihI⟩ := IH (contCur oldNs cOld k) (contCur newNs cNew k)
      (pdfAt oldNs cOld fOld k) (pdfAt newNs cNew fNew k) acc2 t.length
      (by omega) hfresh2
    rw [hu]
    refine ⟨by omega, ?_, ?_, ?_, ?_⟩
    · intro j hj hjne
      rw [ihF j (by omega) (by omega)]
      rw [hacc2, getD_append_left _ _ _ (by simpa using hj)]
      exact getD_set_ne _ _ _ _ hjne
    · intro htrue
      rw [hterm] at htrue
      exact absurd htrue.symm (by simp)
    · intro _
      rw [ihF selfIdx (by omega) (by omega)]
      rw [hacc2, getD_append_left _ _ _ (by simpa using hself)]
      exact getD_set_self _ _ _ hself
    · intro _ hwk G hG ms hms g
      refine ihI hwk G hG ms ?_ ?_ g
      · exact hms t.length (le_refl _) (by omega)
      · intro j hj1 hj2
        exact hms j (by omega) hj2

/-- Full specification of the `buildAugmented` construction walk: it only
appends nodes and updates the current node; and when the walk completes
(`walkOk`), the integral of the constructed subtree equals the residual walk
sum, evaluated in any vector that agrees with the result on the current node
and on the freshly allocated range. -/
theorem augGo_spec (oldNs newNs : List QuadTreeNode) (A : ℚ) :
    ∀ fuel cOld cNew (fOld fNew : ℚ) (acc : List QuadTreeNode) (selfIdx : ℕ),
      selfIdx < acc.length →
      (acc.getD selfIdx default).children = (fun _ => 0) →
      acc.length ≤ (augGo oldNs newNs A fuel cOld cNew fOld fNew acc selfIdx).length ∧
      (∀ j, j < acc.length → j ≠ selfIdx →
        (augGo oldNs newNs A fuel cOld cNew fOld fNew acc selfIdx).getD j default =
          acc.getD j default) ∧
      (walkOk oldNs newNs fuel cOld cNew = true →
        ∀ G, fuel ≤ G → ∀ ms : List QuadTreeNode,
          ms.getD selfIdx default =
            (augGo oldNs newNs A fuel cOld cNew fOld fNew acc selfIdx).getD selfIdx default →
          (∀ j, acc.length ≤ j →
            j < (augGo oldNs newNs A fuel cOld cNew fOld fNew acc selfIdx).length →
            ms.getD j default =
              (augGo oldNs newNs A fuel cOld cNew fOld fNew acc selfIdx).getD j default) →
          ∀ g, integNode ms G selfIdx g =
            g * walkSum oldNs newNs (fun o n => computeAugmentedPdf o n A)
              fuel cOld cNew fOld fNew) := by
  intro fuel
  induction fuel with
  | zero =>
    intro cOld cNew fOld fNew acc selfIdx hself hfresh
    refine ⟨le_refl _, fun j hj hne => rfl, ?_⟩
    intro hwk
    exact absurd hwk (by rw [walkOk]; simp)
  | succ fuel ih =>
    intro cOld cNew fOld fNew acc selfIdx hself hfresh
    have hslot := augSlot_spec oldNs newNs A fuel ih cOld cNew fOld fNew
    rw [augGo]
    generalize h0 : augSlot oldNs newNs A (augGo oldNs newNs A fuel)
      cOld cNew fOld fNew 0 acc selfIdx = s0
    obtain ⟨L0, F0, T0t, T0f, S0⟩ := hslot 0 acc selfIdx hself
    rw [h0] at L0 F0 T0t T0f S0
    generalize h1 : augSlot oldNs newNs A (augGo oldNs newNs A fuel)
      cOld cNew fOld fNew 1 s0 selfIdx = s1
    obtain ⟨L1, F1, T1t, T1f, S1⟩ := hslot 1 s0 selfIdx (by omega)
    rw [h1] at L1 F1 T1t T1f S1
    generalize h2 : augSlot oldNs newNs A (augGo oldNs newNs A fuel)
      cOld cNew fOld fNew 2 s1 selfIdx = s2
    obtain ⟨L2, F2, T2t, T2f, S2⟩ := hslot 2 s1 selfIdx (by omega)
    rw [h2] at L2 F2 T2t T2f S2
    generalize h3 : augSlot oldNs newNs A (augGo oldNs newNs A fuel)
      cOld cNew fOld fNew 3 s2 selfIdx = s3
    obtain ⟨L3, F3, T3t, T3f, S3⟩ := hslot 3 s2 selfIdx (by omega)
    rw [h3] at L3 F3 T3t T3f S3
    -- component preservation for the current node through each step
    have hp0 : ∀ kk : Fin 4, kk ≠ 0 →
        (s0.getD selfIdx default).children kk = (acc.getD selfIdx default).children kk ∧
        (s0.getD selfIdx default).sums kk = (acc.getD selfIdx default).sums kk := by
      intro kk hkk
      by_cases ht : augTermAt oldNs newNs cOld cNew 0 = true
      · rw [T0t ht]
        exact ⟨by rw [setSumAt_children], setSumAt_sums_ne _ _ _ _ hkk⟩
      · rw [Bool.not_eq_true] at ht
        rw [T0f ht]
        refine ⟨?_, ?_⟩
        · rw [setSumAt_children, setChildAt_children_ne _ _ _ _ hkk]
        · rw [setSumAt_sums_ne _ _ _ _ hkk, setChildAt_sums]
    have hp1 : ∀ kk : Fin 4, kk ≠ 1 →
        (s1.getD selfIdx default).children kk = (s0.getD selfIdx default).children kk ∧
        (s1.getD selfIdx default).sums kk = (s0.getD selfIdx default).sums kk := by
      intro kk hkk
      by_cases ht : augTermAt oldNs newNs cOld cNew 1 = true
      · rw [T1t ht]
        exact ⟨by rw [setSumAt_children], setSumAt_sums_ne _ _ _ _ hkk⟩
      · rw [Bool.not_eq_true] at ht
        rw [T1f ht]
        refine ⟨?_, ?_⟩
        · rw [setSumAt_children, setChildAt_children_ne _ _ _ _ hkk]
        · rw [setSumAt_sums_ne _ _ _ _ hkk, setChildAt_sums]
    have hp2 : ∀ kk : Fin 4, kk ≠ 2 →
        (s2.getD selfIdx default).children kk = (s1.getD selfIdx default).children kk ∧
        (s2.getD selfIdx default).sums kk = (s1.getD selfIdx default).sums kk := by
      intro kk hkk
      by_cases ht : augTermAt oldNs newNs cOld cNew 2 = true
      · rw [T2t ht]
        exact ⟨by rw [setSumAt_children], setSumAt_sums_ne _ _ _ _ hkk⟩
      · rw [Bool.not_eq_true] at ht
        rw [T2f ht]
        refine ⟨?_, ?_⟩
        · rw [setSumAt_children, setChildAt_children_ne _ _ _ _ hkk]
        · rw [setSumAt_sums_ne _ _ _ _ hkk, setChildAt_sums]
    have hp3 : ∀ kk : Fin 4, kk ≠ 3 →
        (s3.getD selfIdx default).children kk = (s2.getD selfIdx default).children kk ∧
        (s3.getD selfIdx default).sums kk = (s2.getD selfIdx default).sums kk := by
      intro kk hkk
      by_cases ht : augTermAt oldNs newNs cOld cNew 3 = true
      · rw [T3t ht]
        exact ⟨by rw [setSumAt_children], setSumAt_sums_ne _ _ _ _ hkk⟩
      · rw [Bool.not_eq_true] at ht
        rw [T3f ht]
        refine ⟨?_, ?_⟩
        · rw [setSumAt_children, setChildAt_children_ne _ _ _ _ hkk]
        · rw [setSumAt_sums_ne _ _ _ _ hkk, setChildAt_sums]
    refine ⟨by omega, ?_, ?_⟩
    · intro j hj hne
      rw [F3 j (by omega) hne, F2 j (by omega) hne, F1 j (by omega) hne, F0 j hj hne]
    · intro hwk G hG ms hmsSelf hmsRange g
      rw [walkOk] at hwk
      rw [Bool.and_eq_true, Bool.and_eq_true, Bool.and_eq_true, Bool.and_eq_true,
        Bool.and_eq_true] at hwk
      obtain ⟨⟨⟨⟨⟨hdo, hdn⟩, hw0⟩, hw1⟩, hw2⟩, hw3⟩ := hwk
      rcases G with _ | G'
      · omega
      have hG' : fuel ≤ G' := by omega
      rw [integNode]
      -- the child subtree of a descending slot is preserved into `ms`
      have hframe3 : ∀ j, acc.length ≤ j → j < s2.length →
          ms.getD j default = s2.getD j default := by
        intro j hj1 hj2
        rw [hmsRange j hj1 (by omega)]
        exact F3 j hj2 (by omega)
      have hframe2 : ∀ j, acc.length ≤ j → j < s1.length →
          ms.getD j default = s1.getD j default := by
        intro j hj1 hj2
        rw [hframe3 j hj1 (by omega)]
        exact F2 j hj2 (by omega)
      have hframe1 : ∀ j, acc.length ≤ j → j < s0.length →
          ms.getD j default = s0.getD j default := by
        intro j hj1 hj2
        rw [hframe2 j hj1 (by omega)]
        exact F1 j hj2 (by omega)
      -- slot equations
      have e0 : (if (ms.getD selfIdx default).children 0 = 0
            then (ms.getD selfIdx default).sums 0 * (g / 4)
            else integNode ms G' ((ms.getD selfIdx default).children 0) (g / 4)) =
          g * ((1 / 4) * (if augTermAt oldNs newNs cOld cNew 0
            then computeAugmentedPdf (pdfAt oldNs cOld fOld 0) (pdfAt newNs cNew fNew 0) A
            else walkSum oldNs newNs (fun o n => computeAugmentedPdf o n A) fuel
              (contCur oldNs cOld 0) (contCur newNs cNew 0)
              (pdfAt oldNs cOld fOld 0) (pdfAt newNs cNew fNew 0))) := by
        by_cases tk : augTermAt oldNs newNs cOld cNew 0 = true
        · have hc : (ms.getD selfIdx default).children 0 = 0 := by
            rw [hmsSelf, (hp3 0 (by decide)).1, (hp2 0 (by decide)).1, (hp1 0 (by decide)).1,
              T0t tk, setSumAt_children]
            exact congrFun hfresh 0
          have hs : (ms.getD selfIdx default).sums 0 =
              computeAugmentedPdf (pdfAt oldNs cOld fOld 0) (pdfAt newNs cNew fNew 0) A := by
            rw [hmsSelf, (hp3 0 (by decide)).2, (hp2 0 (by decide)).2, (hp1 0 (by decide)).2,
              T0t tk, setSumAt_sums_self]
          rw [if_pos hc, hs, if_pos tk]
          ring
        · rw [Bool.not_eq_true] at tk
          have hc : (ms.getD selfIdx default).children 0 = acc.length := by
            rw [hmsSelf, (hp3 0 (by decide)).1, (hp2 0 (by decide)).1, (hp1 0 (by decide)).1,
              T0f tk, setSumAt_children, setChildAt_children_self]
          have hwsub : walkOk oldNs newNs fuel (contCur oldNs cOld 0)
              (contCur newNs cNew 0) = true := by
            rcases Bool.or_eq_true_iff.mp hw0 with ht | hval
            · rw [tk] at ht
              exact absurd ht (by simp)
            · exact hval
          have hint := S0 tk hwsub G' hG' ms
            (fun j hj1 hj2 => hframe1 j hj1 hj2) (g / 4)
          rw [if_neg (by rw [hc]; omega), hc, hint, if_neg (by rw [tk]; simp)]
          ring
      have e1 : (if (ms.getD selfIdx default).children 1 = 0
            then (ms.getD selfIdx default).sums 1 * (g / 4)
            else integNode ms G' ((ms.getD selfIdx default).children 1) (g / 4)) =
          g * ((1 / 4) * (if augTermAt oldNs newNs cOld cNew 1
            then computeAugmentedPdf (pdfAt oldNs cOld fOld 1) (pdfAt newNs cNew fNew 1) A
            else walkSum oldNs newNs (fun o n => computeAugmentedPdf o n A) fuel
              (contCur oldNs cOld 1) (contCur newNs cNew 1)
              (pdfAt oldNs cOld fOld 1) (pdfAt newNs cNew fNew 1))) := by
        by_cases tk : augTermAt oldNs newNs cOld cNew 1 = true
        · have hc : (ms.getD selfIdx default).children 1 = 0 := by
            rw [hmsSelf, (hp3 1 (by decide)).1, (hp2 1 (by decide)).1, T1t tk,
              setSumAt_children, (hp0 1 (by decide)).1]
            exact congrFun hfresh 1
          have hs : (ms.getD selfIdx default).sums 1 =
              computeAugmentedPdf (pdfAt oldNs cOld fOld 1) (pdfAt newNs cNew fNew 1) A := by
            rw [hmsSelf, (hp3 1 (by decide)).2, (hp2 1 (by decide)).2, T1t tk,
              setSumAt_sums_self]
          rw [if_pos hc, hs, if_pos tk]
          ring
        · rw [Bool.not_eq_true] at tk
          have hc : (ms.getD selfIdx default).children 1 = s0.length := by
            rw [hmsSelf, (hp3 1 (by decide)).1, (hp2 1 (by decide)).1, T1f tk,
              setSumAt_children, setChildAt_children_self]
          have hwsub : walkOk oldNs newNs fuel (contCur oldNs cOld 1)
              (contCur newNs cNew 1) = true := by
            rcases Bool.or_eq_true_iff.mp hw1 with ht | hval
            · rw [tk] at ht
              exact absurd ht (by simp)
            · exact hval
          have hint := S1 tk hwsub G' hG' ms
            (fun j hj1 hj2 => hframe2 j (by omega) hj2) (g / 4)
          rw [if_neg (by rw [hc]; omega), hc, hint, if_neg (by rw [tk]; simp)]
          ring
      have e2 : (if (ms.getD selfIdx default).children 2 = 0
            then (ms.getD selfIdx default).sums 2 * (g / 4)
            else integNode ms G' ((ms.getD selfIdx default).children 2) (g / 4)) =
          g * ((1 / 4) * (if augTermAt oldNs newNs cOld cNew 2
            then computeAugmentedPdf (pdfAt oldNs cOld fOld 2) (pdfAt newNs cNew fNew 2) A
            else walkSum oldNs newNs (fun o n => computeAugmentedPdf o n A) fuel
              (contCur oldNs cOld 2) (contCur newNs cNew 2)
              (pdfAt oldNs cOld fOld 2) (pdfAt newNs cNew fNew 2))) := by
        by_cases tk : augTermAt oldNs newNs cOld cNew 2 = true
        · have hc : (ms.getD selfIdx default).children 2 = 0 := by
            rw [hmsSelf, (hp3 2 (by decide)).1, T2t tk, setSumAt_children,
              (hp1 2 (by decide)).1, (hp0 2 (by decide)).1]
            exact congrFun hfresh 2
          have hs : (ms.getD selfIdx default).sums 2 =
              computeAugmentedPdf (pdfAt oldNs cOld fOld 2) (pdfAt newNs cNew fNew 2) A := by
            rw [hmsSelf, (hp3 2 (by decide)).2, T2t tk, setSumAt_sums_self]
          rw [if_pos hc, hs, if_pos tk]
          ring
        · rw [Bool.not_eq_true] at tk
          have hc : (ms.getD selfIdx default).children 2 = s1.length := by
            rw [hmsSelf, (hp3 2 (by decide)).1, T2f tk, setSumAt_children,
              setChildAt_children_self]
          have hwsub : walkOk oldNs newNs fuel (contCur oldNs cOld 2)
              (contCur newNs cNew 2) = true := by
            rcases Bool.or_eq_true_iff.mp hw2 with ht | hval
            · rw [tk] at ht
              exact absurd ht (by simp)
            · exact hval
          have hint := S2 tk hwsub G' hG' ms
            (fun j hj1 hj2 => hframe3 j (by omega) hj2) (g / 4)
          rw [if_neg (by rw [hc]; omega), hc, hint, if_neg (by rw [tk]; simp)]
          ring
      have e3 : (if (ms.getD selfIdx default).children 3 = 0
            then (ms.getD selfIdx default).sums 3 * (g / 4)
            else integNode ms G' ((ms.getD selfIdx default).children 3) (g / 4)) =
          g * ((1 / 4) * (if augTermAt oldNs newNs cOld cNew 3
            then computeAugmentedPdf (pdfAt oldNs cOld fOld 3) (pdfAt newNs cNew fNew 3) A
            else walkSum oldNs newNs (fun o n => computeAugmentedPdf o n A) fuel
              (contCur oldNs cOld 3) (contCur newNs cNew 3)
              (pdfAt oldNs cOld fOld 3) (pdfAt newNs cNew fNew 3))) := by
        by_cases tk : augTermAt oldNs newNs cOld cNew 3 = true
        · have hc : (ms.getD selfIdx default).children 3 = 0 := by
            rw [hmsSelf, T3t tk, setSumAt_children, (hp2 3 (by decide)).1,
              (hp1 3 (by decide)).1, (hp0 3 (by decide)).1]
            exact congrFun hfresh 3
          have hs : (ms.getD selfIdx default).sums 3 =
              computeAugmentedPdf (pdfAt oldNs cOld fOld 3) (pdfAt newNs cNew fNew 3) A := by
            rw [hmsSelf, T3t tk, setSumAt_sums_self]
          rw [if_pos hc, hs, if_pos tk]
          ring
        · rw [Bool.not_eq_true] at tk
          have hc : (ms.getD selfIdx default).children 3 = s2.length := by
            rw [hmsSelf, T3f tk, setSumAt_children, setChildAt_children_self]
          have hwsub : walkOk oldNs newNs fuel (contCur oldNs cOld 3)
              (contCur newNs cNew 3) = true := by
            rcases Bool.or_eq_true_iff.mp hw3 with ht | hval
            · rw [tk] at ht
              exact absurd ht (by simp)
            · exact hval
          have hint := S3 tk hwsub G' hG' ms
            (fun j hj1 hj2 => hmsRange j (by omega) (by omega)) (g / 4)
          rw [if_neg (by rw [hc]; omega), hc, hint, if_neg (by rw [tk]; simp)]
          ring
      rw [e0, e1, e2, e3, walkSum]
      ring

/-- `computeIntegral` depends only on the shape data: the children pointers
and the leaf sums. -/
theorem integNode_congr {ns ms : List QuadTreeNode} (h : SameShape ns ms) :
    ∀ fuel idx g, integNode ns fuel idx g = integNode ms fuel idx g := by
  intro fuel
  induction fuel with
  | zero => intro idx g; rfl
  | succ fuel ih =>
    intro idx g
    have hch := (h.2 idx).1
    have hsu := (h.2 idx).2
    have hk : ∀ k : Fin 4,
        (if (ns.getD idx default).children k = 0
          then (ns.getD idx default).sums k * (g / 4)
          else integNode ns fuel ((ns.getD idx default).children k) (g / 4)) =
        (if (ms.getD idx default).children k = 0
          then (ms.getD idx default).sums k * (g / 4)
          else integNode ms fuel ((ms.getD idx default).children k) (g / 4)) := by
      intro k
      rw [← hch]
      by_cases hc : (ns.getD idx default).children k = 0
      · rw [if_pos hc, if_pos hc, hsu k hc]
      · rw [if_neg hc, if_neg hc, ih]
    rw [integNode, integNode, hk 0, hk 1, hk 2, hk 3]

/-- Core of the augmented-integral identity: when `buildAugmented` does not
take the `|A - 1| < EPSILON` early return and the construction walk completes
within the fuel without clipping, the returned float `B` equals `A - 1` and
`computeIntegral` on the constructed augmented tree evaluates to exactly `1`
(so `A * 1 - integral = A - 1 = B`, not `1`). -/
theorem buildAugmented_core (fuel : ℕ) (t oldD newD : DTree)
    (hA : ¬ |majorFactorA fuel newD.nodes oldD.nodes - 1| < EPSILON)
    (hwk : walkOk oldD.nodes newD.nodes fuel ⟨0, none⟩ ⟨0, none⟩ = true)
    (hnc : walkNC oldD.nodes newD.nodes (majorFactorA fuel newD.nodes oldD.nodes)
      fuel ⟨0, none⟩ ⟨0, none⟩ 1 1 = true) :
    (DTree.buildAugmented fuel t oldD newD).2 =
      majorFactorA fuel newD.nodes oldD.nodes - 1 ∧
    ∀ G, fuel ≤ G →
      DTree.computeIntegral G (DTree.buildAugmented fuel t oldD newD).1 = 1 := by
  have hne : majorFactorA fuel newD.nodes oldD.nodes - 1 ≠ 0 := by
    intro h0
    apply hA
    rw [h0]
    norm_num [EPSILON]
  simp only [DTree.buildAugmented]
  rw [if_neg hA]
  refine ⟨rfl, ?_⟩
  intro G hG
  set A := majorFactorA fuel newD.nodes oldD.nodes with hAdef
  set ns0 : List QuadTreeNode := [⟨fun _ => computeAugmentedPdf 1 1 A, fun _ => 0⟩]
    with hns0
  set nsC := augGo oldD.nodes newD.nodes A fuel ⟨0, none⟩ ⟨0, none⟩ 1 1 ns0 0 with hnsC
  show integNode (buildNode nsC.length nsC 0) G 0 1 = 1
  have hshape := buildNode_shape nsC.length nsC 0
  rw [← integNode_congr hshape G 0 1]
  obtain ⟨-, -, hint⟩ := augGo_spec oldD.nodes newD.nodes A fuel ⟨0, none⟩ ⟨0, none⟩ 1 1
    ns0 0 (by simp [hns0]) (by rw [hns0]; rfl)
  have h1 := hint hwk G hG nsC rfl (fun j _ _ => rfl) 1
  rw [h1, one_mul, walkSum_nc oldD.nodes newD.nodes A fuel ⟨0, none⟩ ⟨0, none⟩ 1 1 hnc,
    walkSum_lin, walkSum_proj_new oldD.nodes newD.nodes fuel ⟨0, none⟩ ⟨0, none⟩ 1 1 hwk,
    walkSum_proj_old oldD.nodes newD.nodes fuel ⟨0, none⟩ ⟨0, none⟩ 1 1 hwk]
  rw [mul_one]
  exact div_self hne

/-- Truncation toward zero agrees with the floor on non-negative values. -/
theorem truncQ_of_nonneg {q : ℚ} (h : 0 ≤ q) : truncQ q = ⌊q⌋ :=
  if_pos h

/-- Claim C6: `QuadTreeNode::pdf` returns 0 whenever the child slot selected
by the point has a non-positive sum, and otherwise returns the product of
the factors `4*sum[i]/(sum[0]+sum[1]+sum[2]+sum[3])` accumulated along the
descent, truncating at a leaf or when `curr` reaches `level`: `qpdf` equals
the product of the factor list `pdfFactors` (which is `none` exactly when a
selected slot has non-positive sum, yielding 0). -/
theorem claim_C6 (ns : List QuadTreeNode) (fuel idx : ℕ) (p : ℚ × ℚ)
    (level curr : ℤ) :
    qpdf ns fuel idx p level curr =
      (pdfFactors ns fuel idx p level curr).elim 0 List.prod :=
  qpdf_eq_pdfFactors ns fuel idx p level curr

/-- Claim C8: `DTree::build` is idempotent on trees whose child indices
strictly increase (as all trees built by this program do): building twice
leaves every per-slot sum and the atomic root sum of the once-built tree
unchanged. -/
theorem claim_C8 (t : DTree) (hok : ChildOk t.nodes) :
    (t.build).build = t.build :=
  dtree_build_idem t hok

/-- Witness for C8 at a concrete two-node tree. -/
theorem claim_C8_witness :
    ChildOk exT8.nodes ∧ (exT8.build).build = exT8.build :=
  ⟨by decide, claim_C8 exT8 (by decide)⟩

/-- Claim C10: both components of the pair returned by
`getMajorizingFactor` are strictly positive (each is 1 from the initial
value or floored to at least EPSILON), so the factor `A = second/first`
formed in `buildAugmented` is a division by a nonzero value and is
positive. -/
theorem claim_C10 (fuel : ℕ) (tns ons : List QuadTreeNode) :
    0 < (getMajorizingFactor fuel tns ons).1 ∧
    0 < (getMajorizingFactor fuel tns ons).2 ∧
    0 < (getMajorizingFactor fuel tns ons).2 / (getMajorizingFactor fuel tns ons).1 ∧
    0 < majorFactorA fuel tns ons := by
  obtain ⟨h1, h2⟩ := getMajorizingFactor_pos fuel tns ons
  refine ⟨h1, h2, div_pos h2 h1, ?_⟩
  rw [majorFactorA]
  split
  · norm_num
  · exact div_pos h2 h1

/-- Claim C1 (amended): the scalar factor `A = pdf_other/pdf_this` returned
by `getMajorizingFactor` majorizes at every position where its own walk
terminates (either side a leaf) with both pdfs floored to EPSILON —
`A * max(pdf_this, EPSILON) ≥ max(pdf_other, EPSILON)` there.  (The claim's
stronger property, that `validateMajorizingFactor` — which recurses to
positions where BOTH sides are leaves and uses un-floored pdfs — accepts
`A`, is refuted by `claim_C1_counterexample`.) -/
theorem claim_C1 (fuel : ℕ) (tns ons : List QuadTreeNode) :
    majCheckGo tns ons
      ((getMajorizingFactor fuel tns ons).2 / (getMajorizingFactor fuel tns ons).1)
      fuel ⟨0, none⟩ ⟨0, none⟩ 1 1 = true :=
  majCheck_getMajorizingFactor fuel tns ons

set_option maxRecDepth 16000 in
/-- Counterexample to C1 as stated: for `curr = exCurr1` (one uniform leaf)
and `prev = exPrev1` (energy concentrated under a subdivided slot),
`getMajorizingFactor` stops at the root level (where `curr` is a leaf) and
returns the pair `(1, 1)`, so `A = 1`; but `validateMajorizingFactor`
descends into `prev`'s subtree, where `pdf_prev = 4` exceeds
`A * pdf_curr = 1` by more than EPSILON, and rejects. -/
theorem claim_C1_counterexample :
    getMajorizingFactor 8 exCurr1 exPrev1 = (1, 1) ∧
    validateMajorizingFactor 8 exCurr1 exPrev1
      ((getMajorizingFactor 8 exCurr1 exPrev1).2 /
        (getMajorizingFactor 8 exCurr1 exPrev1).1) = false := by
  constructor
  · with_unfolding_all rfl
  · with_unfolding_all rfl

/-- Claim C2 (amended): when `buildAugmented` does not take the
`|A - 1| < EPSILON` early return and its construction walk completes within
the fuel without clipping, the returned `B` equals `A - 1` and
`computeIntegral` on the constructed augmented tree is exactly `1` — so
`A·1 - integral = A - 1 = B`, which is within `1e-4` of `1` only when `A`
happens to be near `2` (refuted as stated by `claim_C2_counterexample`). -/
theorem claim_C2 (fuel : ℕ) (t oldD newD : DTree)
    (hA : ¬ |majorFactorA fuel newD.nodes oldD.nodes - 1| < EPSILON)
    (hwk : walkOk oldD.nodes newD.nodes fuel ⟨0, none⟩ ⟨0, none⟩ = true)
    (hnc : walkNC oldD.nodes newD.nodes (majorFactorA fuel newD.nodes oldD.nodes)
      fuel ⟨0, none⟩ ⟨0, none⟩ 1 1 = true) :
    (DTree.buildAugmented fuel t oldD newD).2 =
      majorFactorA fuel newD.nodes oldD.nodes - 1 ∧
    ∀ G, fuel ≤ G →
      DTree.computeIntegral G (DTree.buildAugmented fuel t oldD newD).1 = 1 :=
  buildAugmented_core fuel t oldD newD hA hwk hnc

set_option maxRecDepth 16000 in
/-- Witness for C2 at the concrete single-leaf pair `exOld2`/`exNew2`
(`A = 3/2`). -/
theorem claim_C2_witness :
    (¬ |majorFactorA 4 exNew2.nodes exOld2.nodes - 1| < EPSILON) ∧
    walkOk exOld2.nodes exNew2.nodes 4 ⟨0, none⟩ ⟨0, none⟩ = true ∧
    walkNC exOld2.nodes exNew2.nodes (majorFactorA 4 exNew2.nodes exOld2.nodes) 4
      ⟨0, none⟩ ⟨0, none⟩ 1 1 = true ∧
    (DTree.buildAugmented 4 exJunk exOld2 exNew2).2 =
      majorFactorA 4 exNew2.nodes exOld2.nodes - 1 ∧
    DTree.computeIntegral 8 (DTree.buildAugmented 4 exJunk exOld2 exNew2).1 = 1 := by
  have h := claim_C2 4 exJunk exOld2 exNew2 (by with_unfolding_all decide)
    (by with_unfolding_all rfl) (by with_unfolding_all rfl)
  exact ⟨by with_unfolding_all decide, by with_unfolding_all rfl,
    by with_unfolding_all rfl, h.1, h.2 8 (by norm_num)⟩

set_option maxRecDepth 16000 in
/-- Counterexample to C2 as stated: for `exOld2`/`exNew2` the factor is
`A = 3/2`, the augmented integral is exactly `1` and the returned value is
`B = 1/2`, so `A·1 - integral = 1/2`, which is not `1 ± 1e-4`. -/
theorem claim_C2_counterexample :
    (DTree.buildAugmented 4 default exOld2 exNew2).2 = 1/2 ∧
    DTree.computeIntegral 8 (DTree.buildAugmented 4 default exOld2 exNew2).1 = 1 ∧
    majorFactorA 4 exNew2.nodes exOld2.nodes = 3/2 ∧
    ¬ |majorFactorA 4 exNew2.nodes exOld2.nodes * 1 -
        DTree.computeIntegral 8 (DTree.buildAugmented 4 default exOld2 exNew2).1 - 1|
      ≤ 1/10000 := by
  refine ⟨?_, ?_, ?_, ?_⟩ <;> with_unfolding_all decide

/-- Claim C4 (amended): when `|A - 1| < EPSILON`, `buildAugmented` returns
`B = 0` and resets the atomic sum, the statistical weight and the maximum
depth — but `m_nodes` is cleared only after this early return, so the node
vector (and its sums) of an earlier construction is kept
(`claim_C4_counterexample`). -/
theorem claim_C4 (fuel : ℕ) (t oldD newD : DTree)
    (hA : |majorFactorA fuel newD.nodes oldD.nodes - 1| < EPSILON) :
    (DTree.buildAugmented fuel t oldD newD).2 = 0 ∧
    (DTree.buildAugmented fuel t oldD newD).1.sum = 0 ∧
    (DTree.buildAugmented fuel t oldD newD).1.statisticalWeight = 0 ∧
    (DTree.buildAugmented fuel t oldD newD).1.maxDepth = 0 ∧
    (DTree.buildAugmented fuel t oldD newD).1.nodes = t.nodes := by
  simp only [DTree.buildAugmented]
  rw [if_pos hA]
  exact ⟨rfl, rfl, rfl, rfl, rfl⟩

set_option maxRecDepth 16000 in
/-- Witness for C4: two identical default distributions give `A = 1`. -/
theorem claim_C4_witness :
    |majorFactorA 4 (default : DTree).nodes (default : DTree).nodes - 1| < EPSILON ∧
    ((DTree.buildAugmented 4 exJunk default default).2 = 0 ∧
     (DTree.buildAugmented 4 exJunk default default).1.sum = 0 ∧
     (DTree.buildAugmented 4 exJunk default default).1.statisticalWeight = 0 ∧
     (DTree.buildAugmented 4 exJunk default default).1.maxDepth = 0 ∧
     (DTree.buildAugmented 4 exJunk default default).1.nodes = exJunk.nodes) :=
  ⟨by with_unfolding_all decide,
    claim_C4 4 exJunk default default (by with_unfolding_all decide)⟩

set_option maxRecDepth 16000 in
/-- Counterexample to C4 as stated: the early return with `A = 1` leaves the
augmented tree holding the node vector of the earlier construction `exJunk`
(one node with sums `5`), not an empty distribution. -/
theorem claim_C4_counterexample :
    |majorFactorA 4 (default : DTree).nodes (default : DTree).nodes - 1| < EPSILON ∧
    (DTree.buildAugmented 4 exJunk default default).2 = 0 ∧
    (DTree.buildAugmented 4 exJunk default default).1.nodes = exJunk.nodes ∧
    exJunk.nodes ≠ [] ∧
    ((DTree.buildAugmented 4 exJunk default default).1.nodes.getD 0 default).sums 0
      = 5 := by
  refine ⟨?_, ?_, ?_, ?_, ?_⟩ <;> with_unfolding_all decide

/-- Claim C5 (amended): whenever `B` is not below EPSILON (and the weighted
previous-sample accumulator is non-negative), `computeRequiredSamples` sets
`req_augmented_samples` to `floor(req)` plus one exactly when the draw falls
below the fractional part of `req = B * weighted_previous_samples`.  (As
stated the claim is refuted by the `B < EPSILON` branch, which forces the
requirement to 0 regardless of `req`: `claim_C5_counterexample`.) -/
theorem claim_C5 (w : DTreeWrapper) (u : ℚ) (hB : ¬ w.B < EPSILON)
    (hw : 0 ≤ w.weighted_previous_samples) :
    (w.computeRequiredSamples u).req_augmented_samples =
      ⌊w.B * w.weighted_previous_samples⌋.toNat +
        (if u < w.B * w.weighted_previous_samples -
            ((⌊w.B * w.weighted_previous_samples⌋ : ℤ) : ℚ) then 1 else 0) := by
  have hreq : 0 ≤ w.B * w.weighted_previous_samples :=
    mul_nonneg (le_trans (by norm_num [EPSILON]) (not_lt.mp hB)) hw
  rw [DTreeWrapper.computeRequiredSamples, if_neg hB]
  show (if u < w.B * w.weighted_previous_samples -
      ((truncQ (w.B * w.weighted_previous_samples) : ℤ) : ℚ)
    then (truncQ (w.B * w.weighted_previous_samples)).toNat + 1
    else (truncQ (w.B * w.weighted_previous_samples)).toNat) = _
  rw [truncQ_of_nonneg hreq]
  split
  · rfl
  · rfl

/-- Witness for C5 at `exW5` with draw `1/3` (`req = 7/2`, fractional part
`1/2`). -/
theorem claim_C5_witness :
    (¬ exW5.B < EPSILON) ∧ 0 ≤ exW5.weighted_previous_samples ∧
    (exW5.computeRequiredSamples (1/3)).req_augmented_samples =
      ⌊exW5.B * exW5.weighted_previous_samples⌋.toNat +
        (if (1/3 : ℚ) < exW5.B * exW5.weighted_previous_samples -
            ((⌊exW5.B * exW5.weighted_previous_samples⌋ : ℤ) : ℚ) then 1 else 0) :=
  ⟨by with_unfolding_all decide, by with_unfolding_all decide,
    claim_C5 exW5 (1/3) (by with_unfolding_all decide) (by with_unfolding_all decide)⟩

set_option maxRecDepth 16000 in
/-- Counterexample to C5 as stated: with `B = 1/200000 < EPSILON` and a
million weighted previous samples, `req = 5` and the claim allows only `5`
(or `6`), but the code's `B < EPSILON` branch sets the requirement to 0. -/
theorem claim_C5_counterexample :
    (exW5cex.computeRequiredSamples 0).req_augmented_samples = 0 ∧
    ⌊exW5cex.B * exW5cex.weighted_previous_samples⌋.toNat = 5 ∧
    (0 : ℕ) ≠ 5 ∧ (0 : ℕ) ≠ 5 + 1 := by
  refine ⟨?_, ?_, ?_, ?_⟩ <;> with_unfolding_all decide

/-- The prefix loop of the reject replay never touches a path at or past the
cut. -/
theorem rejectLoop_frame (oc : Oracles) (fuel : ℕ) (s : STree) :
    ∀ n (us : List ℚ) (ps : List RPath),
      (rejectLoop oc fuel s us n ps).length = ps.length ∧
      ∀ j, n ≤ j →
        (rejectLoop oc fuel s us n ps).getD j default = ps.getD j default := by
  intro n
  induction n with
  | zero =>
    intro us ps
    exact ⟨rfl, fun j hj => rfl⟩
  | succ n ih =>
    intro us ps
    cases ps with
    | nil => exact ⟨rfl, fun j hj => rfl⟩
    | cons p ps' =>
      rw [rejectLoop]
      obtain ⟨ihl, ihf⟩ := ih (rejectPath oc fuel s us p).2 ps'
      constructor
      · simp [ihl]
      · intro j hj
        cases j with
        | zero => omega
        | succ j' =>
          rw [List.getD_cons_succ, List.getD_cons_succ]
          exact ihf j' (by omega)

/-- Claim C3 (amended): the reject+augment replay touches only the prefix
`[0, m_augmentedStartPos)`: every path at an index at or past the cut is
returned unchanged (and the list keeps its length).  (The reweight+augment
replay instead iterates over `m_samplePaths->size()`, i.e. every stored
path: `claim_C3_counterexample`.) -/
theorem claim_C3 (oc : Oracles) (fuel : ℕ) (s : STree) (us : List ℚ)
    (paths : List RPath) (augmentedStartPos j : ℕ)
    (hj : augmentedStartPos ≤ j) :
    (rejectAugmentHybrid oc fuel s us paths augmentedStartPos).length =
      paths.length ∧
    (rejectAugmentHybrid oc fuel s us paths augmentedStartPos).getD j default =
      paths.getD j default := by
  obtain ⟨h1, h2⟩ := rejectLoop_frame oc fuel s augmentedStartPos us paths
  exact ⟨h1, h2 j hj⟩

/-- Witness for C3: with the cut at 0, the reject replay leaves the stored
path untouched. -/
theorem claim_C3_witness :
    (rejectAugmentHybrid exOracles3 1 exSTree3 [] [exRPath3] 0).length =
      [exRPath3].length ∧
    (rejectAugmentHybrid exOracles3 1 exSTree3 [] [exRPath3] 0).getD 0 default =
      [exRPath3].getD 0 default :=
  claim_C3 exOracles3 1 exSTree3 [] [exRPath3] 0 0 (le_refl 0)

set_option maxRecDepth 16000 in
/-- Counterexample to C3 as stated: with `m_augmentedStartPos = 0` (no path
may be replayed), `reweightAugmentHybrid` still rewrites the retained active
path at index 0: its stored `woPdf` changes from 1000 to the recomputed
`13/24` (and its `sc` is scaled accordingly). -/
theorem claim_C3_counterexample :
    exRPath3.active = true ∧
    (reweightAugmentHybrid exOracles3 1 exSTree3 [exRPath3]).getD 0 default ≠
      [exRPath3].getD 0 default ∧
    ((reweightAugmentHybrid exOracles3 1 exSTree3 [exRPath3]).getD 0
        default).path.map RVertex.woPdf = [13/24] ∧
    ([exRPath3].getD 0 default).path.map RVertex.woPdf = [1000] := by
  refine ⟨rfl, ?_, ?_, ?_⟩ <;> with_unfolding_all decide

/-- Claim C9: for a record with finite positive statistical weight whose
irradiance is non-positive or non-finite, `recordIrradiance` only adds the
statistical weight to the atomic accumulator (the node sums are untouched);
for a non-positive or non-finite statistical weight it changes nothing. -/
theorem claim_C9 (fuel : ℕ) (t : DTree) (p : ℚ × ℚ) (irr sw : FVal) (flt : Bool) :
    (sw.finite = true → 0 < sw.val → (irr.finite = false ∨ irr.val ≤ 0) →
      DTree.recordIrradiance fuel t p irr sw flt =
        { t with statisticalWeight := t.statisticalWeight + sw.val }) ∧
    ((sw.finite = false ∨ sw.val ≤ 0) →
      DTree.recordIrradiance fuel t p irr sw flt = t) := by
  constructor
  · intro hfin hpos hirr
    have hg1 : (sw.finite && decide (0 < sw.val)) = true := by
      rw [hfin, decide_eq_true hpos]
      rfl
    have hg2 : (irr.finite && decide (0 < irr.val)) = false := by
      rcases hirr with h | h
      · rw [h]
        rfl
      · rw [decide_eq_false (not_lt.mpr h)]
        simp
    rw [DTree.recordIrradiance, hg1, hg2]
    rfl
  · intro hsw
    have hg1 : (sw.finite && decide (0 < sw.val)) = false := by
      rcases hsw with h | h
      · rw [h]
        rfl
      · rw [decide_eq_false (not_lt.mpr h)]
        simp
    rw [DTree.recordIrradiance, hg1]
    rfl

/-- Witness for C9 at concrete inputs: weight `2` with irradiance `-1`
only bumps the accumulator; a non-finite weight changes nothing. -/
theorem claim_C9_witness :
    DTree.recordIrradiance 4 exJunk (1/3, 1/3) ⟨true, -1⟩ ⟨true, 2⟩ true =
      { exJunk with statisticalWeight := exJunk.statisticalWeight + 2 } ∧
    DTree.recordIrradiance 4 exJunk (1/3, 1/3) ⟨true, 5⟩ ⟨false, 2⟩ true = exJunk :=
  ⟨(claim_C9 4 exJunk (1/3, 1/3) ⟨true, -1⟩ ⟨true, 2⟩ true).1 rfl (by norm_num)
      (Or.inr (by norm_num)),
    (claim_C9 4 exJunk (1/3, 1/3) ⟨true, 5⟩ ⟨false, 2⟩ true).2 (Or.inl rfl)⟩

/-- Closed form of `subdivideST` below the `uint32_t` limit. -/
theorem subdivideST_eq (nodes : List STreeNode) (nodeIdx : ℕ)
    (hsz : nodes.length + 2 ≤ 4294967295) :
    subdivideST nodes nodeIdx =
      (((nodes ++ [default, default]).set nodeIdx
          { (nodes ++ [default, default]).getD nodeIdx default with
              children := fun i => nodes.length + i.val,
              isLeaf := false, dTree := default }).set
        nodes.length
        (subChildOf ((nodes ++ [default, default]).getD nodeIdx default))).set
        (nodes.length + 1)
        (subChildOf ((nodes ++ [default, default]).getD nodeIdx default)) := by
  have hlen1 : (nodes ++ [default, default] : List STreeNode).length =
      nodes.length + 2 := by
    simp
  simp only [subdivideST]
  rw [if_neg (by rw [hlen1]; omega)]
  rw [hlen1]
  norm_num

theorem subdivideST_length (nodes : List STreeNode) (nodeIdx : ℕ)
    (hsz : nodes.length + 2 ≤ 4294967295) :
    (subdivideST nodes nodeIdx).length = nodes.length + 2 := by
  rw [subdivideST_eq nodes nodeIdx hsz]
  simp

/-- Claim C7: `STree::subdivide` appends two children, each carrying a copy
of the parent's `dTreeWrapper` with halved building statistical weight (so
the aggregate is preserved), axis cycled to `(parent.axis + 1) % 3` and
incremented level; the parent is marked non-leaf and its wrapper cleared;
every other node is untouched; and the axis-cycling invariant over all
non-leaf nodes is preserved. -/
theorem claim_C7 (nodes : List STreeNode) (nodeIdx : ℕ)
    (hidx : nodeIdx < nodes.length)
    (hsz : nodes.length + 2 ≤ 4294967295)
    (hleaf : (nodes.getD nodeIdx default).isLeaf = true)
    (hax : AxisInv nodes) (hok : SChildOk nodes) :
    (subdivideST nodes nodeIdx).length = nodes.length + 2 ∧
    ((subdivideST nodes nodeIdx).getD nodeIdx default).isLeaf = false ∧
    ((subdivideST nodes nodeIdx).getD nodeIdx default).dTree = default ∧
    ((subdivideST nodes nodeIdx).getD nodeIdx default).axis =
      (nodes.getD nodeIdx default).axis ∧
    (∀ i : Fin 2, ((subdivideST nodes nodeIdx).getD nodeIdx default).children i =
      nodes.length + i.val) ∧
    (∀ i : Fin 2, (subdivideST nodes nodeIdx).getD (nodes.length + i.val) default =
      subChildOf (nodes.getD nodeIdx default)) ∧
    (∀ c : STreeNode, (subChildOf c).axis = (c.axis + 1) % 3 ∧
      (subChildOf c).isLeaf = true ∧ (subChildOf c).level = c.level + 1 ∧
      (subChildOf c).dTree.building.statisticalWeight =
        c.dTree.building.statisticalWeight / 2 ∧
      (subChildOf c).dTree.sampling = c.dTree.sampling ∧
      (subChildOf c).dTree.building.nodes = c.dTree.building.nodes) ∧
    ((subdivideST nodes nodeIdx).getD nodes.length
        default).dTree.building.statisticalWeight +
      ((subdivideST nodes nodeIdx).getD (nodes.length + 1)
        default).dTree.building.statisticalWeight =
      (nodes.getD nodeIdx default).dTree.building.statisticalWeight ∧
    (∀ j, j < nodes.length → j ≠ nodeIdx →
      (subdivideST nodes nodeIdx).getD j default = nodes.getD j default) ∧
    AxisInv (subdivideST nodes nodeIdx) := by
  have hlen1 : (nodes ++ [default, default] : List STreeNode).length =
      nodes.length + 2 := by
    simp
  have hE := subdivideST_eq nodes nodeIdx hsz
  have hcur : (nodes ++ [default, default] : List STreeNode).getD nodeIdx default =
      nodes.getD nodeIdx default := getD_append_left _ _ _ hidx
  have hP : (subdivideST nodes nodeIdx).getD nodeIdx default =
      { nodes.getD nodeIdx default with
          children := fun i => nodes.length + i.val,
          isLeaf := false, dTree := default } := by
    rw [hE, getD_set_ne _ _ _ _ (by omega), getD_set_ne _ _ _ _ (by omega),
      getD_set_self _ _ _ (by rw [hlen1]; omega), hcur]
  have hC0 : (subdivideST nodes nodeIdx).getD nodes.length default =
      subChildOf (nodes.getD nodeIdx default) := by
    rw [hE, getD_set_ne _ _ _ _ (by omega),
      getD_set_self _ _ _ (by rw [List.length_set, hlen1]; omega), hcur]
  have hC1 : (subdivideST nodes nodeIdx).getD (nodes.length + 1) default =
      subChildOf (nodes.getD nodeIdx default) := by
    rw [hE,
      getD_set_self _ _ _ (by rw [List.length_set, List.length_set, hlen1]; omega),
      hcur]
  have hFr : ∀ j, j < nodes.length → j ≠ nodeIdx →
      (subdivideST nodes nodeIdx).getD j default = nodes.getD j default := by
    intro j hjl hjne
    rw [hE, getD_set_ne _ _ _ _ (by omega), getD_set_ne _ _ _ _ (by omega),
      getD_set_ne _ _ _ _ hjne, getD_append_left _ _ _ hjl]
  have hL : (subdivideST nodes nodeIdx).length = nodes.length + 2 :=
    subdivideST_length nodes nodeIdx hsz
  refine ⟨hL, ?_, ?_, ?_, ?_, ?_, ?_, ?_, hFr, ?_⟩
  · rw [hP]
  · rw [hP]
  · rw [hP]
  · intro i
    rw [hP]
  · intro i
    fin_cases i
    · exact hC0
    · exact hC1
  · intro c
    exact ⟨rfl, rfl, rfl, rfl, rfl, rfl⟩
  · rw [hC0, hC1]
    show (nodes.getD nodeIdx default).dTree.building.statisticalWeight / 2 +
        (nodes.getD nodeIdx default).dTree.building.statisticalWeight / 2 = _
    ring
  · intro j hj hnl i
    rw [hL] at hj
    by_cases hjx : j = nodeIdx
    · subst hjx
      rw [hP] at hnl ⊢
      show ((subdivideST nodes j).getD (nodes.length + i.val) default).axis =
        ((nodes.getD j default).axis + 1) % 3
      fin_cases i
      · show ((subdivideST nodes j).getD nodes.length default).axis =
          ((nodes.getD j default).axis + 1) % 3
        rw [hC0]
        rfl
      · show ((subdivideST nodes j).getD (nodes.length + 1) default).axis =
          ((nodes.getD j default).axis + 1) % 3
        rw [hC1]
        rfl
    · by_cases hjl : j < nodes.length
      · rw [hFr j hjl hjx] at hnl ⊢
        have hcl : (nodes.getD j default).children i < nodes.length :=
          hok j hjl hnl i
        by_cases hcx : (nodes.getD j default).children i = nodeIdx
        · rw [hcx, hP]
          show (nodes.getD nodeIdx default).axis =
            ((nodes.getD j default).axis + 1) % 3
          have h := hax j hjl hnl i
          rw [hcx] at h
          exact h
        · rw [hFr _ hcl hcx]
          exact hax j hjl hnl i
      · have hj2 : j = nodes.length ∨ j = nodes.length + 1 := by omega
        rcases hj2 with h2 | h2
        · subst h2
          rw [hC0] at hnl
          simp [subChildOf] at hnl
        · subst h2
          rw [hC1] at hnl
          simp [subChildOf] at hnl

/-- Witness for C7 at the one-leaf spatial tree. -/
theorem claim_C7_witness :
    (subdivideST [default] 0).length = 3 ∧ AxisInv (subdivideST [default] 0) := by
  have h := claim_C7 [default] 0 (by decide) (by decide) (by decide) (by decide)
    (by decide)
  exact ⟨h.1, h.2.2.2.2.2.2.2.2.2⟩
